import Mathlib

/-
Verification of the clog columnar log system (crates clog_core, clog_collector,
clog_client) against its specification.

The Rust source is shallowly embedded: Rust strings are lists of characters,
machine integers are naturals reduced modulo 2 to the matching power where the
source can wrap, fallible operations return Option or Except, and panics are
modelled as Option.none.  The pco numeric codec and the brotli byte compressor
are external libraries treated as a faithful transport (capability contracts in
the specification), so an encoded block is modelled as the structured content of
the byte stream rather than raw bytes.
-/

namespace Clog

/-- Rust str values are modelled as lists of characters. -/
abbrev RStr := List Char

/-- STR_SEP_1, the separator character used by write_string_set_inner and
read_string_set_inner in core/src/types.rs. -/
def strSep : Char := '\n'

/-- Model of Rust str::split on the separator: an empty string yields one empty
segment, and every occurrence of the separator starts a new segment. -/
def splitSep : RStr → List RStr
  | [] => [[]]
  | c :: rest =>
    if c = strSep then [] :: splitSep rest
    else
      match splitSep rest with
      | s :: ss => (c :: s) :: ss
      | [] => [[c]]

/-- Model of intersperse(set.iter(), STR_SEP_1_STR).collect::<String>() in
write_string_set_inner: the pool strings joined with the separator. -/
def joinSep : List RStr → RStr
  | [] => []
  | [s] => s
  | s :: s2 :: rest => s ++ strSep :: joinSep (s2 :: rest)

/-- SymbolU32::try_from_usize from the string_interner crate: succeeds exactly
when index + 1 fits in a nonzero u32. -/
def symTryFromUsize (i : Nat) : Option Nat :=
  if i < 2 ^ 32 - 1 then some i else none

/-- Shared interning primitive (IndexSet::insert_full, and the backing store
of StringInterner::get_or_intern): index of the element if present, otherwise
append it; returns the updated list and the index. -/
def indexSetInsertFull [DecidableEq α] (l : List α) (x : α) : List α × Nat :=
  match l.findIdx? (· = x) with
  | some i => (l, i)
  | none => (l ++ [x], l.length)

/-- StringInterner with a StringBackend: the interned strings in insertion
order, pairwise distinct; a symbol is the 0-based index of its string. -/
structure Interner where
  strings : List RStr
deriving DecidableEq

/-- StringInterner::new (with_hasher): the empty interner. -/
def Interner.emptyI : Interner := ⟨[]⟩

/-- StringInterner::get_or_intern: return the symbol of the string if present,
otherwise append it and return the fresh symbol. -/
def Interner.getOrIntern (it : Interner) (s : RStr) : Interner × Nat :=
  let r := indexSetInsertFull it.strings s
  (⟨r.1⟩, r.2)

/-- StringInterner::resolve: the string of a symbol, if in range. -/
def Interner.resolve (it : Interner) (i : Nat) : Option RStr :=
  it.strings[i]?

/-- StringInterner::extend: get_or_intern every element in order. -/
def Interner.extend (it : Interner) (ss : List RStr) : Interner :=
  ss.foldl (fun a s => (a.getOrIntern s).1) it

/-- NumberSeries of core/src/types.rs: a stateless codec, the handle is the
value itself. -/
structure NumberSeries where
deriving DecidableEq

/-- NumberSeries add: the handle is the value. -/
def NumberSeries.add (n : NumberSeries) (item : Nat) : NumberSeries × Nat :=
  (n, item)

/-- NumberSeries get: always succeeds with the handle. -/
def NumberSeries.get (_n : NumberSeries) (compressed : Nat) : Option Nat :=
  some compressed

/-- HashStrings of core/src/types.rs: a string interner; the handle is
SymbolU32::to_usize of the interned symbol (0-based). -/
structure HashStrings where
  set : Interner
deriving DecidableEq

/-- HashStrings add: get_or_intern, handle is the 0-based symbol index cast
to u32. -/
def HashStrings.add (h : HashStrings) (item : RStr) : HashStrings × Nat :=
  let r := h.set.getOrIntern item
  (⟨r.1⟩, r.2 % 2 ^ 32)

/-- HashStrings get: resolve the symbol obtained by try_from_usize. -/
def HashStrings.get (h : HashStrings) (compressed : Nat) : Option RStr :=
  (symTryFromUsize compressed).bind fun s => h.set.resolve s

/-- HashStrings read (read_string_set): rebuild the interner by splitting the
decompressed pool on the separator and extending an empty interner. -/
def HashStrings.readSet (pool : RStr) : HashStrings :=
  ⟨Interner.emptyI.extend (splitSep pool)⟩

/-- HashStringsOpt of core/src/types.rs: like HashStrings but handle 0 encodes
None; the source add returns SymbolU32::to_usize without any shift. -/
structure HashStringsOpt where
  set : Interner
deriving DecidableEq

/-- HashStringsOpt add: None gives handle 0; Some interns and returns the
0-based symbol index (as written in the source). -/
def HashStringsOpt.add (h : HashStringsOpt) (item : Option RStr) :
    HashStringsOpt × Nat :=
  match item with
  | none => (h, 0)
  | some s =>
    let r := h.set.getOrIntern s
    (⟨r.1⟩, r.2 % 2 ^ 32)

/-- HashStringsOpt get: handle 0 is Some None; handle i resolves symbol i - 1,
failing only when try_from_usize fails. -/
def HashStringsOpt.get (h : HashStringsOpt) (compressed : Nat) :
    Option (Option RStr) :=
  match compressed with
  | 0 => some none
  | Nat.succ i => (symTryFromUsize i).map fun s => h.set.resolve s

/-- HashStringsOpt read: identical to the HashStrings pool rebuild. -/
def HashStringsOpt.readSet (pool : RStr) : HashStringsOpt :=
  ⟨Interner.emptyI.extend (splitSep pool)⟩

/-- TimeSeries of core/src/types.rs: per-block base offset (u64); handles are
u32 truncations of the wrapping difference from the offset. -/
structure TimeSeries where
  offset : Nat
deriving DecidableEq

/-- TimeSeries add: the first add fixes the offset (the item when nonzero,
otherwise 1); the handle is the wrapping u64 difference truncated to u32. -/
def TimeSeries.add (t : TimeSeries) (item : Nat) : TimeSeries × Nat :=
  let off := if t.offset = 0 then (if item ≠ 0 then item else 1) else t.offset
  (⟨off⟩, ((item + 2 ^ 64 - off) % 2 ^ 64) % 2 ^ 32)

/-- TimeSeries get: offset plus handle with wrapping u64 addition. -/
def TimeSeries.get (t : TimeSeries) (compressed : Nat) : Option Nat :=
  some ((t.offset + compressed) % 2 ^ 64)

/-- TimeSeries addAll: fold TimeSeries::add over a list of times, collecting
the handles in order. -/
def TimeSeries.addAll (t : TimeSeries) (ts : List Nat) : TimeSeries × List Nat :=
  match ts with
  | [] => (t, [])
  | x :: xs =>
    let r := t.add x
    let rr := r.1.addAll xs
    (rr.1, r.2 :: rr.2)

/-- Base offset the TimeSeries codec fixes at the first add of a block. -/
def timeBase (ts : List Nat) : Nat :=
  match ts with
  | [] => 0
  | t0 :: _ => if t0 = 0 then 1 else t0

/-- HashIpv6 of core/src/types.rs: an IndexSet of the upper three u32 limbs of
the address; the handle is the prefix index plus the low u32 suffix. -/
structure HashIpv6 where
  prefixes : List (Nat × Nat × Nat)
deriving DecidableEq

/-- HashIpv6 add: split the u128 address into three prefix limbs and a suffix,
intern the prefix. -/
def HashIpv6.add (h : HashIpv6) (item : Nat) : HashIpv6 × (Nat × Nat) :=
  let pfx : Nat × Nat × Nat :=
    ((item >>> 96) % 2 ^ 32, (item >>> 64) % 2 ^ 32, (item >>> 32) % 2 ^ 32)
  let suffix := item % 2 ^ 32
  let r := indexSetInsertFull h.prefixes pfx
  (⟨r.1⟩, (r.2 % 2 ^ 32, suffix))

/-- HashIpv6 get: look up the prefix limbs and reassemble the u128 address. -/
def HashIpv6.get (h : HashIpv6) (c : Nat × Nat) : Option Nat :=
  match h.prefixes[c.1]? with
  | none => none
  | some p => some ((p.1 <<< 96) ||| (p.2.1 <<< 64) ||| (p.2.2 <<< 32) ||| c.2)

/-- HashIpv6 read: re-insert the transported prefix table into a fresh
IndexSet, in order. -/
def HashIpv6.readTable (table : List (Nat × Nat × Nat)) : HashIpv6 :=
  ⟨table.foldl (fun l x => (indexSetInsertFull l x).1) []⟩

/-- StringMap of core/src/types.rs: key and value interners plus an IndexSet
of entries, each a vector of (key index, value index) pairs. -/
structure StringMap where
  keys : Interner
  values : Interner
  entries : List (List (Nat × Nat))
deriving DecidableEq

/-- StringMap add: intern every key and value of the map, collect the index
pairs, and insert the entry vector into the entry set. -/
def StringMap.add (m : StringMap) (item : List (RStr × RStr)) :
    StringMap × Nat :=
  let r := item.foldl
    (fun (acc : Interner × Interner × List (Nat × Nat)) kv =>
      let rk := acc.1.getOrIntern kv.1
      let rv := acc.2.1.getOrIntern kv.2
      (rk.1, rv.1, acc.2.2 ++ [(rk.2, rv.2)]))
    (m.keys, m.values, [])
  let ri := indexSetInsertFull m.entries r.2.2
  ({ keys := r.1, values := r.2.1, entries := ri.1 }, ri.2 % 2 ^ 32)

/-- StringMap get: with no entries at all return Some of the empty map for any
handle; otherwise look up the entry and resolve its pairs, dropping pairs that
fail to resolve. -/
def StringMap.get (m : StringMap) (compressed : Nat) :
    Option (List (RStr × RStr)) :=
  if m.entries.length = 0 then some []
  else
    match m.entries[compressed]? with
    | none => none
    | some entry => some (entry.filterMap fun kv =>
        (symTryFromUsize kv.1).bind fun ks =>
        (m.keys.resolve ks).bind fun k =>
        (symTryFromUsize kv.2).bind fun vs =>
        (m.values.resolve vs).map fun v => (k, v))

/-- BatchEntry of core/src/shema.rs: one decoded record. -/
structure BatchEntry where
  status : Nat
  method : RStr
  uri : RStr
  ua : Option RStr
  referer : Option RStr
  ip : Nat
  port : Nat
  time : Nat
deriving DecidableEq

/-- CompressedEntry of core/src/shema.rs: the per-record handle tuple stored in
the struct-of-arrays. -/
structure CompressedEntry where
  status : Nat
  method : Nat
  uri : Nat
  ua : Nat
  referer : Nat
  ip_pre_idx : Nat
  ip_suffix : Nat
  port : Nat
  time : Nat
deriving DecidableEq

/-- Builder of core/src/shema.rs: the per-column codec states plus the Soa of
compressed entries. -/
structure Builder where
  status : NumberSeries
  method : HashStrings
  uri : HashStrings
  ua : HashStringsOpt
  referer : HashStringsOpt
  ip : HashIpv6
  port : NumberSeries
  time : TimeSeries
  soa : List CompressedEntry

/-- Builder::default. -/
def Builder.emptyB : Builder :=
  { status := ⟨⟩, method := ⟨⟨[]⟩⟩, uri := ⟨⟨[]⟩⟩, ua := ⟨⟨[]⟩⟩,
    referer := ⟨⟨[]⟩⟩, ip := ⟨[]⟩, port := ⟨⟩, time := ⟨0⟩, soa := [] }

/-- Builder::add: run every codec add on its field and push the handle tuple
onto the Soa. -/
def Builder.add (b : Builder) (item : BatchEntry) : Builder :=
  let rStatus := b.status.add item.status
  let rMethod := b.method.add item.method
  let rUri := b.uri.add item.uri
  let rUa := b.ua.add item.ua
  let rReferer := b.referer.add item.referer
  let rIp := b.ip.add item.ip
  let rPort := b.port.add item.port
  let rTime := b.time.add item.time
  let c : CompressedEntry :=
    { status := rStatus.2, method := rMethod.2, uri := rUri.2, ua := rUa.2,
      referer := rReferer.2, ip_pre_idx := rIp.2.1, ip_suffix := rIp.2.2,
      port := rPort.2, time := rTime.2 }
  { status := rStatus.1, method := rMethod.1, uri := rUri.1, ua := rUa.1,
    referer := rReferer.1, ip := rIp.1, port := rPort.1, time := rTime.1,
    soa := b.soa ++ [c] }

/-- Builder decompress body: decode one handle tuple against the codec states;
the source unwraps each lookup with expect, modelled as Option. -/
def Builder.decompressEntry (b : Builder) (c : CompressedEntry) :
    Option BatchEntry :=
  (b.status.get c.status).bind fun status =>
  (b.method.get c.method).bind fun method =>
  (b.uri.get c.uri).bind fun uri =>
  (b.ua.get c.ua).bind fun ua =>
  (b.referer.get c.referer).bind fun referer =>
  (b.ip.get (c.ip_pre_idx, c.ip_suffix)).bind fun ip =>
  (b.port.get c.port).bind fun port =>
  (b.time.get c.time).map fun time =>
  { status, method, uri, ua, referer, ip, port, time }

/-- Builder::get: fetch the handle tuple at an index and decode it. -/
def Builder.get (b : Builder) (idx : Nat) : Option BatchEntry :=
  (b.soa[idx]?).bind b.decompressEntry

/-- Builder::len. -/
def Builder.len (b : Builder) : Nat := b.soa.length

/-- Builder::iter materialized: every Soa entry decompressed in order; none
models the expect panic on a failing lookup. -/
def Builder.entriesAll (b : Builder) : Option (List BatchEntry) :=
  b.soa.mapM b.decompressEntry

/-- Builder::from for a list of records: fold Builder::add from default. -/
def buildFrom (rs : List BatchEntry) : Builder :=
  rs.foldl Builder.add Builder.emptyB

/-- Invariant of a builder obtained by folding Builder::add over the records
done: lengths agree, every stored tuple decodes to its record, the interners
are duplicate-free and populated only from the records (the optional-string
interners stay empty when every record carries none, with all their handles
0), and the time offset is the base fixed by the first record. -/
structure BuilderInv (b : Builder) (done : List BatchEntry) : Prop where
  lenEq : b.soa.length = done.length
  decode : ∀ (i : Nat) (c : CompressedEntry) (r : BatchEntry),
    b.soa[i]? = some c → done[i]? = some r → b.decompressEntry c = some r
  methodNodup : b.method.set.strings.Nodup
  methodProv : ∀ s ∈ b.method.set.strings, ∃ r ∈ done, s = r.method
  methodLen : b.method.set.strings.length ≤ done.length
  methodNeNil : done ≠ [] → b.method.set.strings ≠ []
  uriNodup : b.uri.set.strings.Nodup
  uriProv : ∀ s ∈ b.uri.set.strings, ∃ r ∈ done, s = r.uri
  uriLen : b.uri.set.strings.length ≤ done.length
  uriNeNil : done ≠ [] → b.uri.set.strings ≠ []
  uaEmpty : b.ua.set = Interner.emptyI
  refererEmpty : b.referer.set = Interner.emptyI
  optZero : ∀ c ∈ b.soa, c.ua = 0 ∧ c.referer = 0
  ipNodup : b.ip.prefixes.Nodup
  ipLen : b.ip.prefixes.length ≤ done.length
  timeOff : b.time.offset = timeBase (done.map BatchEntry.time)

/-- Structured content of the byte stream emitted by Builder::write_to: the
header, and for each field in declared order its size descriptor payload (the
string pools, the time offset, the prefix table) and its handle column.  The
pco and brotli layers are treated as a faithful transport. -/
structure Block where
  version : Nat
  len : Nat
  statusCol : List Nat
  methodPool : RStr
  methodCol : List Nat
  uriPool : RStr
  uriCol : List Nat
  uaPool : RStr
  uaCol : List Nat
  refererPool : RStr
  refererCol : List Nat
  ipPreCol : List Nat
  ipSuffixCol : List Nat
  ipTable : List (Nat × Nat × Nat)
  portCol : List Nat
  timeOffset : Nat
  timeCol : List Nat
deriving DecidableEq

/-- Builder::write_to: header with version 1 and the Soa length, then every
column in declared order. -/
def Builder.write_to (b : Builder) : Block :=
  { version := 1
    len := b.soa.length
    statusCol := b.soa.map (·.status)
    methodPool := joinSep b.method.set.strings
    methodCol := b.soa.map (·.method)
    uriPool := joinSep b.uri.set.strings
    uriCol := b.soa.map (·.uri)
    uaPool := joinSep b.ua.set.strings
    uaCol := b.soa.map (·.ua)
    refererPool := joinSep b.referer.set.strings
    refererCol := b.soa.map (·.referer)
    ipPreCol := b.soa.map (·.ip_pre_idx)
    ipSuffixCol := b.soa.map (·.ip_suffix)
    ipTable := b.ip.prefixes
    portCol := b.soa.map (·.port)
    timeOffset := b.time.offset
    timeCol := b.soa.map (·.time) }

/-- One decompress_slice call: the reader fills a slice of the header length,
so the transported column must have exactly that length. -/
def readCol (len : Nat) (col : List α) : Except String (List α) :=
  if col.length = len then Except.ok col else Except.error "decompress"

/-- Rebuild the Soa from the nine handle columns, truncating at the shortest
column (all columns are length-checked before this is applied). -/
def zip9 : List Nat → List Nat → List Nat → List Nat → List Nat → List Nat →
    List Nat → List Nat → List Nat → List CompressedEntry
  | s :: ss, m :: ms, u :: us, a :: as_, r :: rs, p :: ps, x :: xs, o :: os,
      t :: ts =>
    { status := s, method := m, uri := u, ua := a, referer := r,
      ip_pre_idx := p, ip_suffix := x, port := o, time := t } ::
      zip9 ss ms us as_ rs ps xs os ts
  | _, _, _, _, _, _, _, _, _ => []

/-- Builder::from_slice: reject any header version other than 1, then rebuild
every codec state and the handle columns in declared order. -/
def Builder.from_slice (blk : Block) : Except String Builder :=
  if blk.version = 1 then
    (readCol blk.len blk.statusCol).bind fun statusCol =>
    (readCol blk.len blk.methodCol).bind fun methodCol =>
    (readCol blk.len blk.uriCol).bind fun uriCol =>
    (readCol blk.len blk.uaCol).bind fun uaCol =>
    (readCol blk.len blk.refererCol).bind fun refererCol =>
    (readCol blk.len blk.ipPreCol).bind fun ipPreCol =>
    (readCol blk.len blk.ipSuffixCol).bind fun ipSuffixCol =>
    (readCol blk.len blk.portCol).bind fun portCol =>
    (readCol blk.len blk.timeCol).bind fun timeCol =>
    Except.ok
      { status := ⟨⟩
        method := HashStrings.readSet blk.methodPool
        uri := HashStrings.readSet blk.uriPool
        ua := HashStringsOpt.readSet blk.uaPool
        referer := HashStringsOpt.readSet blk.refererPool
        ip := HashIpv6.readTable blk.ipTable
        port := ⟨⟩
        time := ⟨blk.timeOffset⟩
        soa := zip9 statusCol methodCol uriCol uaCol refererCol ipPreCol
          ipSuffixCol portCol timeCol }
  else Except.error "Version mismatch"

/-- SyncHeader of core/src/lib.rs. -/
structure SyncHeader where
  start : Nat
  block_size : Nat
  first_block : Nat
  first_backlog : Nat
deriving DecidableEq

/-- A sealed block as handed to the persistent-block manager via
AddBuffer: the start sequence number and the sealed builder (whose encoding
is the transported payload). -/
structure SealedBlock where
  start : Nat
  builder : Builder

/-- CollectorBackend of collector/src/lib.rs: the open builder, its start
sequence number and the block limit.  The sealed field records the sequence of
AddBuffer commands emitted to the persistent-block manager. -/
structure CollectorBackend where
  current : Builder
  current_start : Nat
  block_limit : Nat
  sealed : List SealedBlock

/-- Backend state installed by init_log: empty builder starting at 0. -/
def CollectorBackend.init (limit : Nat) : CollectorBackend :=
  { current := Builder.emptyB, current_start := 0, block_limit := limit,
    sealed := [] }

/-- CollectorBackend::send_current: a nonempty open builder is replaced by a
fresh one, current_start advances by its length (wrapping u64), and the sealed
builder is emitted with its start. -/
def CollectorBackend.sendCurrent (b : CollectorBackend) : CollectorBackend :=
  if b.current.len = 0 then b
  else
    { b with
      current := Builder.emptyB
      current_start := (b.current_start + b.current.len) % 2 ^ 64
      sealed := b.sealed ++ [{ start := b.current_start, builder := b.current }] }

/-- CollectorBackend::push: append the record to the open builder and seal it
once the block limit is reached. -/
def CollectorBackend.push (b : CollectorBackend) (e : BatchEntry) :
    CollectorBackend :=
  let b := { b with current := b.current.add e }
  if b.block_limit ≤ b.current.len then b.sendCurrent else b

/-- CollectorBackend::send_sync: the Sync packet built at attach time. -/
def CollectorBackend.sendSync (b : CollectorBackend) (first_backlog : Nat) :
    SyncHeader :=
  { block_size := b.block_limit
    first_backlog := first_backlog
    first_block := 0
    start := (b.current_start + b.current.len) % 2 ^ 64 }

/-- CollectorBackend::follow_with_backlog: the Sync packet it emits and the
range forwarded to the persistent-block manager Get command. -/
def CollectorBackend.followWithBacklog (b : CollectorBackend) (backlog : Nat) :
    SyncHeader × (Nat × Nat) :=
  let first_backlog := b.current_start - backlog
  (b.sendSync first_backlog, (first_backlog, b.current_start))

/-- Events consumed by the backend loop: an ingested record or a flush. -/
inductive CollectorEvent where
  | push (e : BatchEntry)
  | flush
deriving Inhabited

/-- One iteration of the backend event loop. -/
def CollectorBackend.step (b : CollectorBackend) : CollectorEvent →
    CollectorBackend
  | CollectorEvent.push e => b.push e
  | CollectorEvent.flush => b.sendCurrent

/-- Run the backend event loop over a list of events. -/
def CollectorBackend.run (b : CollectorBackend) (es : List CollectorEvent) :
    CollectorBackend :=
  es.foldl CollectorBackend.step b

/-- Number of push events in an event list. -/
def pushCount : List CollectorEvent → Nat
  | [] => 0
  | CollectorEvent.push _ :: es => pushCount es + 1
  | CollectorEvent.flush :: es => pushCount es

/-- Total number of records inside a list of sealed blocks. -/
def sealedTotal (l : List SealedBlock) : Nat :=
  (l.map fun s => s.builder.len).sum

/-- Contiguity chain for sealed blocks: starting from s0, every block starts
exactly where the previous one ended. -/
def SealedChain (s0 : Nat) : List SealedBlock → Prop
  | [] => True
  | b :: rest => b.start = s0 ∧ SealedChain (s0 + b.builder.len) rest

/-- Backend loop invariant after k ingested records: the sealed blocks chain
from 0, current_start sits at the end of the sealed range, and sealed plus
open records account for every push. -/
def BackendInv (b : CollectorBackend) (k : Nat) : Prop :=
  SealedChain 0 b.sealed ∧ b.current_start = sealedTotal b.sealed ∧
    sealedTotal b.sealed + b.current.len = k

/-- PastManager Get loop body over the descending cached entries below end:
send every cached payload, and stop after the first position below start.
Modelled with no data directory, so a missing cache entry is skipped rather
than reloaded from disk. -/
def pastGetLoop (start : Nat) : List (Nat × Option β) → List (Nat × β)
  | [] => []
  | (pos, data) :: rest =>
    let sent := match data with
      | some d => [(pos, d)]
      | none => []
    if pos < start then sent else sent ++ pastGetLoop start rest

/-- PastManager handling of Get: iterate the map over ..end descending (the
map is an ascending association list, so that is the reversed filter) and run
the send loop. -/
def pastGet (buffers : List (Nat × Option β)) (start stop : Nat) :
    List (Nat × β) :=
  pastGetLoop start ((buffers.filter fun p => p.1 < stop).reverse)

/-- Client of client/src/lib.rs: the sparse mirror of the log. -/
structure Client where
  entries : List (Nat × Builder)
  current : Builder
  current_start : Nat
  requested_start : Nat

/-- Rust usize subtraction under release (wrapping) semantics, for operands
below 2^64. -/
def rustSubUsize (x y : Nat) : Nat := (x + 2 ^ 64 - y) % 2 ^ 64

/-- Builder::range composed with decompress: soa.iter().skip(start).take(end -
start) where the subtraction wraps, then every element decompressed (an expect
failure is none). -/
def Builder.rangeEntries (b : Builder) (s e : Nat) :
    Option (List BatchEntry) :=
  ((b.soa.drop s).take (rustSubUsize e s)).mapM b.decompressEntry

/-- Client::get_range: the chunk chain is the greatest sealed block below the
range start, the sealed blocks keyed inside the range, then the current block;
each chunk contributes its clamped window with absolute sequence numbers.
none models a panic: BTreeMap::range panics when the range start exceeds its
end on a nonempty map, and a failing decompress panics on consumption. -/
def Client.get_range (c : Client) (a b : Nat) :
    Option (List (Nat × BatchEntry)) :=
  if c.entries.length ≠ 0 ∧ b < a then none
  else
    let below := match (c.entries.filter fun p => p.1 < a).getLast? with
      | some x => [x]
      | none => []
    let chunks := below ++ (c.entries.filter fun p => a ≤ p.1 ∧ p.1 < b) ++
      [(c.current_start, c.current)]
    (chunks.mapM fun (nc : Nat × Builder) =>
      let s := min (a - nc.1) nc.2.len
      let e := min (b - nc.1) nc.2.len
      (nc.2.rangeEntries s e).map fun es =>
        es.enum.map fun ie => (((ie.1 + s) % 2 ^ 64 + nc.1) % 2 ^ 64, ie.2)
    ).map List.flatten

/-- FilterView of client/src/lib.rs.  The parsed filter is modelled by its
matching predicate; produce is modelled as pairing the sequence number with
the decoded entry, so the cache holds those pairs. -/
structure FilterView where
  len : Nat
  filter : Option (BatchEntry → Bool)
  positions : List Nat
  cache : List (Nat × BatchEntry)
  start : Nat

/-- The matches helper of client/src/lib.rs: a missing filter matches
everything. -/
def FilterView.matchesF (fv : FilterView) (e : BatchEntry) : Bool :=
  match fv.filter with
  | some f => f e
  | none => true

/-- FilterView::render: clear the positions, walk get_range(start..u64::MAX)
filtered by the predicate taking up to len matches, record their positions and
rebuild the cache; returns the rendered rows.  none models a panic while
consuming the range. -/
def FilterView.render (fv : FilterView) (c : Client) :
    Option (List (Nat × BatchEntry)) × FilterView :=
  match c.get_range fv.start (2 ^ 64 - 1) with
  | none => (none, fv)
  | some rows =>
    let new := (rows.filter fun p => fv.matchesF p.2).take fv.len
    (some new,
      { fv with positions := new.map (·.1), cache := new })

/-- One iteration of the forward scroll loop: evict the front when full, then
push the new position. -/
def scrollPushBack (len : Nat) (ps : List Nat) (pos : Nat) : List Nat :=
  (if len ≤ ps.length then ps.tail else ps) ++ [pos]

/-- FilterView::scroll_by: forward walks matches after the last visible
position, taking at most the requested count; backward walks matches below
start and jumps to the last one taken, defaulting to 0.  none models a panic
while consuming the range; the returned Bool is the end-reached flag. -/
def FilterView.scroll_by (fv : FilterView) (c : Client) (by_ : Int) :
    Option (FilterView × Bool) :=
  if 0 < by_ then
    let stop := fv.positions.getLast?.getD fv.start
    match c.get_range (stop + 1) (2 ^ 64 - 1) with
    | none => none
    | some rows =>
      let ms := rows.filter fun p => fv.matchesF p.2
      let consumed := ms.take by_.toNat
      let positions := consumed.foldl
        (fun ps p => scrollPushBack fv.len ps p.1) fv.positions
      let start := positions.head?.getD fv.start
      some ({ fv with positions := positions, start := start },
        decide (consumed.length < by_.toNat))
  else
    match c.get_range 0 fv.start with
    | none => none
    | some rows =>
      let pos := (((rows.reverse.filter fun p => fv.matchesF p.2).take
        (-by_).toNat).getLast?.map (·.1)).getD 0
      some ({ fv with start := pos }, decide (pos = 0))

/-- Predicate matching no record of one block: every stored handle tuple
decodes successfully to a record the view predicate rejects. -/
def chunkNoMatch (fv : FilterView) (b : Builder) : Prop :=
  ∀ cE ∈ b.soa, (b.decompressEntry cE).map fv.matchesF = some false

/-- Predicate matching no entry of the client mirror: no sealed block and not
the current block holds a matching record. -/
def ClientNoMatch (fv : FilterView) (c : Client) : Prop :=
  (∀ p ∈ c.entries, chunkNoMatch fv p.2) ∧ chunkNoMatch fv c.current

end Clog

namespace Clog

theorem splitSep_ne_nil (l : RStr) : splitSep l ≠ [] := by
  match l with
  | [] => simp [splitSep]
  | c :: rest =>
    simp only [splitSep]
    split
    · simp
    · match h : splitSep rest with
      | [] => simp
      | s :: ss => simp

/-- C10: StringMap::get returns Some of the empty map for every handle value
when the entry set is empty. -/
theorem c10_stringMap_empty_get (m : StringMap) (h : m.entries = [])
    (n : Nat) : m.get n = some [] := by
  simp [StringMap.get, h]

/-- Witness for C10 at the default StringMap and handle 7. -/
theorem c10_stringMap_empty_get_witness :
    (StringMap.mk ⟨[]⟩ ⟨[]⟩ []).entries = [] ∧
    (StringMap.mk ⟨[]⟩ ⟨[]⟩ []).get 7 = some [] :=
  ⟨rfl, c10_stringMap_empty_get (StringMap.mk ⟨[]⟩ ⟨[]⟩ []) rfl 7⟩

/-- C3: evaluation of the HashStringsOpt codec at the first interned string.
The source add returns the 0-based symbol index, so the first Some string gets
handle 0, which get decodes as None: get does not invert add on Some values,
although handle 0 is reserved for None by get and by the block format. -/
theorem c3_hashStringsOpt_add_bug :
    (HashStringsOpt.add ⟨⟨[]⟩⟩ (some ['a'])).2 = 0 ∧
    ((HashStringsOpt.add ⟨⟨[]⟩⟩ (some ['a'])).1.get
      (HashStringsOpt.add ⟨⟨[]⟩⟩ (some ['a'])).2) = some none := by
  decide

/-- C4 counterexample: adding time 0 first fixes the offset at 1, so
get(add(0)) is 2^32 rather than 0, and after adds 0 then 7 the offset is 1,
not the first nonzero added time 7. -/
theorem c4_counterexample :
    ((TimeSeries.mk 0).add 0).1.get ((TimeSeries.mk 0).add 0).2 ≠ some 0 ∧
    (((TimeSeries.mk 0).add 0).1.add 7).1.offset ≠ 7 := by
  decide

theorem timeSeries_add_frozen (t : TimeSeries) (x : Nat) (h : t.offset ≠ 0) :
    t.add x = (t, ((x + 2 ^ 64 - t.offset) % 2 ^ 64) % 2 ^ 32) := by
  cases t
  simp [TimeSeries.add, h]

theorem timeSeries_addAll_frozen (off : Nat) (hoff : off ≠ 0)
    (ts : List Nat) :
    (TimeSeries.mk off).addAll ts =
      (⟨off⟩, ts.map fun x => ((x + 2 ^ 64 - off) % 2 ^ 64) % 2 ^ 32) := by
  induction ts with
  | nil => simp [TimeSeries.addAll]
  | cons x xs ih =>
    have hfroz := timeSeries_add_frozen (TimeSeries.mk off) x hoff
    simp [TimeSeries.addAll, hfroz, ih]

theorem timeSeries_decode_handle (off x : Nat) (h1 : off ≤ x)
    (h2 : x < off + 2 ^ 32) (h3 : x < 2 ^ 64) :
    (TimeSeries.mk off).get (((x + 2 ^ 64 - off) % 2 ^ 64) % 2 ^ 32) =
      some x := by
  have e1 : x + 2 ^ 64 - off = 2 ^ 64 + (x - off) := by omega
  have e2 : (2 ^ 64 + (x - off)) % 2 ^ 64 = x - off := by
    rw [Nat.add_mod_left]
    exact Nat.mod_eq_of_lt (by omega)
  have e3 : (x - off) % 2 ^ 32 = x - off := Nat.mod_eq_of_lt (by omega)
  have e4 : off + (x - off) = x := by omega
  simp only [TimeSeries.get, e1, e2, e3, e4, Nat.mod_eq_of_lt h3]

/-- C4 amended: the per-block base offset is the first added time when that
time is nonzero and 1 otherwise; every handle is the u32 truncation of the
wrapping u64 difference from the offset, get returns offset + handle wrapping
in u64, and get(add(t)) = t for every added time t lying in
[offset, offset + 2^32). -/
theorem c4_timeSeries_amended (ts : List Nat)
    (hb : ∀ t ∈ ts, timeBase ts ≤ t ∧ t < timeBase ts + 2 ^ 32)
    (hw : ∀ t ∈ ts, t < 2 ^ 64) :
    (ts ≠ [] → ((TimeSeries.mk 0).addAll ts).1.offset = timeBase ts) ∧
    (((TimeSeries.mk 0).addAll ts).2).map
      (((TimeSeries.mk 0).addAll ts).1.get) = ts.map some := by
  cases ts with
  | nil => simp [TimeSeries.addAll]
  | cons t0 rest =>
    have hoff : timeBase (t0 :: rest) ≠ 0 := by
      simp only [timeBase]
      split <;> simp_all
    have ht0 := hb t0 (List.mem_cons_self t0 rest)
    have hadd : (TimeSeries.mk 0).add t0 =
        (⟨timeBase (t0 :: rest)⟩,
          ((t0 + 2 ^ 64 - timeBase (t0 :: rest)) % 2 ^ 64) % 2 ^ 32) := by
      simp [TimeSeries.add, timeBase]
    have hrest := timeSeries_addAll_frozen (timeBase (t0 :: rest)) hoff rest
    have hrun : (TimeSeries.mk 0).addAll (t0 :: rest) =
        (⟨timeBase (t0 :: rest)⟩,
          (t0 :: rest).map fun x =>
            ((x + 2 ^ 64 - timeBase (t0 :: rest)) % 2 ^ 64) % 2 ^ 32) := by
      simp [TimeSeries.addAll, hadd, hrest]
    rw [hrun]
    refine ⟨fun _ => rfl, ?_⟩
    rw [List.map_map]
    refine List.map_congr_left ?_
    intro x hx
    exact timeSeries_decode_handle (timeBase (t0 :: rest)) x
      (hb x hx).1 (hb x hx).2 (hw x hx)

/-- Witness for C4 amended at the times 100, 101, 100. -/
theorem c4_timeSeries_amended_witness :
    (∀ t ∈ [100, 101, 100], timeBase [100, 101, 100] ≤ t ∧
      t < timeBase [100, 101, 100] + 2 ^ 32) ∧
    (([100, 101, 100] ≠ [] →
      ((TimeSeries.mk 0).addAll [100, 101, 100]).1.offset =
        timeBase [100, 101, 100]) ∧
    (((TimeSeries.mk 0).addAll [100, 101, 100]).2).map
      (((TimeSeries.mk 0).addAll [100, 101, 100]).1.get) =
        [100, 101, 100].map some) :=
  ⟨by decide, c4_timeSeries_amended [100, 101, 100] (by decide) (by decide)⟩

/-- C5: on attach with backlog n the Sync packet carries start equal to
current_start + current.len() and first_backlog equal to
current_start.saturating_sub(n), taken from the backend state at attach
time. -/
theorem c5_sync_packet (b : CollectorBackend) (n : Nat)
    (h : b.current_start + b.current.len < 2 ^ 64) :
    (b.followWithBacklog n).1.start = b.current_start + b.current.len ∧
    (b.followWithBacklog n).1.first_backlog = b.current_start - n := by
  exact ⟨Nat.mod_eq_of_lt h, rfl⟩

/-- Witness for C5 at a backend holding one open record with start 5 and
backlog 3. -/
theorem c5_sync_packet_witness :
    ((CollectorBackend.mk
      (Builder.emptyB.add ⟨200, [], [], none, none, 0, 80, 100⟩) 5 10000
      []).current_start +
      (CollectorBackend.mk
        (Builder.emptyB.add ⟨200, [], [], none, none, 0, 80, 100⟩) 5 10000
        []).current.len < 2 ^ 64) ∧
    (((CollectorBackend.mk
      (Builder.emptyB.add ⟨200, [], [], none, none, 0, 80, 100⟩) 5 10000
      []).followWithBacklog 3).1.start = 5 + 1 ∧
    ((CollectorBackend.mk
      (Builder.emptyB.add ⟨200, [], [], none, none, 0, 80, 100⟩) 5 10000
      []).followWithBacklog 3).1.first_backlog = 5 - 3) :=
  ⟨by decide, c5_sync_packet _ 3 (by decide)⟩

theorem builder_add_len (b : Builder) (e : BatchEntry) :
    (b.add e).len = b.len + 1 := by
  simp [Builder.add, Builder.len]

theorem sealedChain_append (l : List SealedBlock) (x : SealedBlock) :
    ∀ s0, SealedChain s0 l → x.start = s0 + sealedTotal l →
      SealedChain s0 (l ++ [x]) := by
  induction l with
  | nil =>
    intro s0 _ hx
    simp only [sealedTotal, List.map_nil, List.sum_nil, Nat.add_zero] at hx
    exact ⟨hx, trivial⟩
  | cons b rest ih =>
    intro s0 hc hx
    refine ⟨hc.1, ih (s0 + b.builder.len) hc.2 ?_⟩
    rw [hx]
    simp [sealedTotal]
    omega

theorem sealedChain_index (l : List SealedBlock) :
    ∀ s0, SealedChain s0 l → ∀ i bi bj, l[i]? = some bi →
      l[i + 1]? = some bj → bj.start = bi.start + bi.builder.len := by
  induction l with
  | nil => intro s0 _ i bi bj h; simp at h
  | cons b rest ih =>
    intro s0 hc i bi bj hbi hbj
    match i with
    | 0 =>
      simp only [List.getElem?_cons_zero, Option.some.injEq] at hbi
      match rest, hc.2, hbj with
      | b2 :: rest2, hc2, hbj =>
        simp only [List.getElem?_cons_succ, List.getElem?_cons_zero,
          Option.some.injEq] at hbj
        subst hbi hbj
        rw [hc2.1, hc.1]
    | Nat.succ j =>
      simp only [List.getElem?_cons_succ] at hbi hbj
      exact ih (s0 + b.builder.len) hc.2 j bi bj hbi hbj

theorem backendInv_sendCurrent (b : CollectorBackend) (k N : Nat)
    (h : BackendInv b k) (hkN : k ≤ N) (hN : N < 2 ^ 64) :
    BackendInv b.sendCurrent k := by
  obtain ⟨hchain, hcs, htot⟩ := h
  have happ : sealedTotal
      (b.sealed ++ [{ start := b.current_start, builder := b.current }]) =
      sealedTotal b.sealed + b.current.len := by
    simp [sealedTotal]
  have hempty : Builder.emptyB.len = 0 := rfl
  unfold CollectorBackend.sendCurrent
  split
  · exact ⟨hchain, hcs, htot⟩
  · refine ⟨?_, ?_, ?_⟩
    · exact sealedChain_append b.sealed _ 0 hchain (by simpa using hcs)
    · show (b.current_start + b.current.len) % 2 ^ 64 = _
      have hlt : b.current_start + b.current.len < 2 ^ 64 := by omega
      rw [Nat.mod_eq_of_lt hlt, happ, hcs]
    · show sealedTotal _ + Builder.emptyB.len = k
      rw [happ, hempty]
      omega

theorem backendInv_push (b : CollectorBackend) (e : BatchEntry) (k N : Nat)
    (h : BackendInv b k) (hkN : k + 1 ≤ N) (hN : N < 2 ^ 64) :
    BackendInv (b.push e) (k + 1) := by
  obtain ⟨hchain, hcs, htot⟩ := h
  have hmid : BackendInv { b with current := b.current.add e } (k + 1) := by
    refine ⟨hchain, hcs, ?_⟩
    simp only [builder_add_len]
    omega
  simp only [CollectorBackend.push]
  split
  · exact backendInv_sendCurrent _ _ N hmid hkN hN
  · exact hmid

theorem backendInv_run (N : Nat) (hN : N < 2 ^ 64) (es : List CollectorEvent) :
    ∀ b k, BackendInv b k → k + pushCount es ≤ N →
      BackendInv (b.run es) (k + pushCount es) := by
  induction es with
  | nil => intro b k h _; simpa [CollectorBackend.run] using h
  | cons e rest ih =>
    intro b k h hle
    match e with
    | CollectorEvent.push x =>
      have h1 : BackendInv (b.push x) (k + 1) :=
        backendInv_push b x k N h (by simp [pushCount] at hle; omega) hN
      have h2 := ih (b.push x) (k + 1) h1
        (by simp [pushCount] at hle ⊢; omega)
      simpa [CollectorBackend.run, CollectorBackend.step, pushCount,
        Nat.add_assoc, Nat.add_comm 1 (pushCount rest)] using h2
    | CollectorEvent.flush =>
      have h1 : BackendInv b.sendCurrent k :=
        backendInv_sendCurrent b k N h
          (by simp [pushCount] at hle; omega) hN
      have h2 := ih b.sendCurrent k h1 (by simpa [pushCount] using hle)
      simpa [CollectorBackend.run, CollectorBackend.step, pushCount] using h2

/-- C7: running the backend from a fresh state over any event sequence with
fewer than 2^64 ingested records, the sealed blocks form a contiguous chain
from 0 (consecutive blocks satisfy start of the next = start + length of the
previous), and current_start always equals the end of the sealed range, the
start the next sealed block will carry. -/
theorem c7_sealed_contiguous (limit : Nat) (es : List CollectorEvent)
    (hN : pushCount es < 2 ^ 64) :
    SealedChain 0 ((CollectorBackend.init limit).run es).sealed ∧
    (∀ i bi bj, ((CollectorBackend.init limit).run es).sealed[i]? = some bi →
      ((CollectorBackend.init limit).run es).sealed[i + 1]? = some bj →
      bj.start = bi.start + bi.builder.len) ∧
    ((CollectorBackend.init limit).run es).current_start =
      sealedTotal ((CollectorBackend.init limit).run es).sealed := by
  have hinit : BackendInv (CollectorBackend.init limit) 0 := by
    refine ⟨trivial, rfl, rfl⟩
  have h := backendInv_run (pushCount es) hN es (CollectorBackend.init limit)
    0 hinit (by omega)
  obtain ⟨hchain, hcs, _⟩ := h
  exact ⟨hchain, sealedChain_index _ 0 hchain, hcs⟩

/-- Witness for C7: block limit 2 over three pushes and a flush. -/
theorem c7_sealed_contiguous_witness :
    pushCount [CollectorEvent.push ⟨200, [], [], none, none, 0, 80, 100⟩,
      CollectorEvent.push ⟨404, [], [], none, none, 0, 80, 101⟩,
      CollectorEvent.push ⟨200, [], [], none, none, 0, 80, 102⟩,
      CollectorEvent.flush] < 2 ^ 64 ∧
    (SealedChain 0 ((CollectorBackend.init 2).run
      [CollectorEvent.push ⟨200, [], [], none, none, 0, 80, 100⟩,
       CollectorEvent.push ⟨404, [], [], none, none, 0, 80, 101⟩,
       CollectorEvent.push ⟨200, [], [], none, none, 0, 80, 102⟩,
       CollectorEvent.flush]).sealed ∧
    (∀ i bi bj, ((CollectorBackend.init 2).run
      [CollectorEvent.push ⟨200, [], [], none, none, 0, 80, 100⟩,
       CollectorEvent.push ⟨404, [], [], none, none, 0, 80, 101⟩,
       CollectorEvent.push ⟨200, [], [], none, none, 0, 80, 102⟩,
       CollectorEvent.flush]).sealed[i]? = some bi →
      ((CollectorBackend.init 2).run
      [CollectorEvent.push ⟨200, [], [], none, none, 0, 80, 100⟩,
       CollectorEvent.push ⟨404, [], [], none, none, 0, 80, 101⟩,
       CollectorEvent.push ⟨200, [], [], none, none, 0, 80, 102⟩,
       CollectorEvent.flush]).sealed[i + 1]? = some bj →
      bj.start = bi.start + bi.builder.len) ∧
    ((CollectorBackend.init 2).run
      [CollectorEvent.push ⟨200, [], [], none, none, 0, 80, 100⟩,
       CollectorEvent.push ⟨404, [], [], none, none, 0, 80, 101⟩,
       CollectorEvent.push ⟨200, [], [], none, none, 0, 80, 102⟩,
       CollectorEvent.flush]).current_start =
      sealedTotal ((CollectorBackend.init 2).run
      [CollectorEvent.push ⟨200, [], [], none, none, 0, 80, 100⟩,
       CollectorEvent.push ⟨404, [], [], none, none, 0, 80, 101⟩,
       CollectorEvent.push ⟨200, [], [], none, none, 0, 80, 102⟩,
       CollectorEvent.flush]).sealed) :=
  ⟨by decide, c7_sealed_contiguous 2 _ (by decide)⟩

/-- C6 counterexample: with cached blocks at positions 0 and 10, Get with
start 5 and end 20 sends the block at position 0 as well, although 0 lies
below start: the loop sends a block first and only then checks the stop
condition, so one extra block below start is emitted. -/
theorem c6_counterexample :
    pastGet [((0 : Nat), some (10 : Nat)), (10, some 20)] 5 20 =
      [(10, 20), (0, 10)] ∧ ¬ (5 ≤ (0 : Nat)) := by
  decide

theorem pastGetLoop_allSome (s : Nat) (l : List (Nat × β)) :
    pastGetLoop s (l.map fun p => (p.1, some p.2)) =
      (l.takeWhile fun p => s ≤ p.1) ++ (l.dropWhile fun p => s ≤ p.1).take 1
    := by
  induction l with
  | nil => rfl
  | cons x rest ih =>
    by_cases hx : x.1 < s
    · have hb : (decide (s ≤ x.1)) = false :=
        decide_eq_false_iff_not.mpr (by omega)
      simp [pastGetLoop, hx, List.takeWhile_cons, List.dropWhile_cons, hb]
    · have hb : (decide (s ≤ x.1)) = true := by
        simp only [decide_eq_true_eq]
        omega
      simp [pastGetLoop, hx, List.takeWhile_cons, List.dropWhile_cons, hb, ih]

theorem descTakeWhile (s : Nat) (l : List (Nat × β))
    (h : l.Pairwise fun p q => q.1 < p.1) :
    (l.takeWhile fun p => s ≤ p.1) = l.filter fun p => s ≤ p.1 := by
  induction l with
  | nil => rfl
  | cons x rest ih =>
    have hx := List.pairwise_cons.mp h
    by_cases hs : s ≤ x.1
    · simp [List.takeWhile_cons, List.filter_cons, hs, ih hx.2]
    · have hrest : (rest.filter fun p => decide (s ≤ p.1)) = [] := by
        rw [List.filter_eq_nil_iff]
        intro y hy
        have := hx.1 y hy
        simp only [decide_eq_true_eq]
        omega
      simp [List.takeWhile_cons, List.filter_cons, hs, hrest]

theorem descDropWhile (s : Nat) (l : List (Nat × β))
    (h : l.Pairwise fun p q => q.1 < p.1) :
    (l.dropWhile fun p => s ≤ p.1) = l.filter fun p => p.1 < s := by
  induction l with
  | nil => rfl
  | cons x rest ih =>
    have hx := List.pairwise_cons.mp h
    by_cases hs : s ≤ x.1
    · have hxlt : ¬ (x.1 < s) := by omega
      simp [List.dropWhile_cons, List.filter_cons, hs, hxlt, ih hx.2]
    · have hall : (rest.filter fun p => decide (p.1 < s)) = rest := by
        rw [List.filter_eq_self]
        intro y hy
        have := hx.1 y hy
        simp only [decide_eq_true_eq]
        omega
      have hxlt : x.1 < s := by omega
      simp [List.dropWhile_cons, List.filter_cons, hs, hxlt, hall]

theorem allSome_filter (buffers : List (Nat × β)) (e : Nat) :
    ((buffers.map fun p => (p.1, some p.2)).filter fun p => p.1 < e) =
      (buffers.filter fun p => p.1 < e).map fun p => (p.1, some p.2) := by
  induction buffers with
  | nil => rfl
  | cons x rest ih =>
    by_cases hx : x.1 < e <;> simp [List.filter_cons, hx, ih]

/-- C6 amended: for an all-cached ascending block index, Get sends the cached
blocks at positions start <= pos < end in descending position order, followed
by at most one extra block, the greatest cached position below start (and
below end); blocks below that are not sent. -/
theorem c6_pastGet_amended (buffers : List (Nat × β)) (s e : Nat)
    (hsort : buffers.Pairwise fun p q => p.1 < q.1) :
    pastGet (buffers.map fun p => (p.1, some p.2)) s e =
      ((buffers.filter fun p => p.1 < e).reverse.filter fun p => s ≤ p.1) ++
      List.take 1
        ((buffers.filter fun p => p.1 < e).reverse.filter fun p => p.1 < s)
    := by
  have hdesc : ((buffers.filter fun p => p.1 < e).reverse).Pairwise
      fun p q => q.1 < p.1 := by
    rw [List.pairwise_reverse]
    exact hsort.filter _
  unfold pastGet
  rw [allSome_filter, ← List.map_reverse, pastGetLoop_allSome,
    descTakeWhile _ _ hdesc, descDropWhile _ _ hdesc]

/-- Witness for C6 amended at the index 0, 10 with start 5 and end 20. -/
theorem c6_pastGet_amended_witness :
    ([((0 : Nat), (10 : Nat)), (10, 20)].Pairwise fun p q => p.1 < q.1) ∧
    pastGet ([((0 : Nat), (10 : Nat)), (10, 20)].map
        fun p => (p.1, some p.2)) 5 20 =
      (([((0 : Nat), (10 : Nat)), (10, 20)].filter
        fun p => p.1 < 20).reverse.filter fun p => 5 ≤ p.1) ++
      List.take 1
        (([((0 : Nat), (10 : Nat)), (10, 20)].filter
          fun p => p.1 < 20).reverse.filter fun p => p.1 < 5) :=
  ⟨by decide, c6_pastGet_amended [(0, 10), (10, 20)] 5 20 (by decide)⟩

/-- C2 counterexample: a block whose header version is 0 does not exceed the
compiled version, yet from_slice rejects it with a Version mismatch error, so
acceptance is not (version <= compiled version). -/
theorem c2_counterexample :
    Builder.from_slice { Builder.write_to Builder.emptyB with version := 0 } =
      Except.error "Version mismatch" ∧
    ({ Builder.write_to Builder.emptyB with version := 0 } : Block).version ≤ 1
    := ⟨rfl, by decide⟩

/-- C2 amended: from_slice accepts exactly the blocks whose header version
equals the compiled constant 1 and whose columns all carry the header length;
every other version is rejected with a Version mismatch error (there is no
VersionTooNew and no version gating in the reader). -/
theorem c2_version_gate (blk : Block) :
    ((Builder.from_slice blk).isOk = true ↔
      (blk.version = 1 ∧ blk.statusCol.length = blk.len ∧
        blk.methodCol.length = blk.len ∧ blk.uriCol.length = blk.len ∧
        blk.uaCol.length = blk.len ∧ blk.refererCol.length = blk.len ∧
        blk.ipPreCol.length = blk.len ∧ blk.ipSuffixCol.length = blk.len ∧
        blk.portCol.length = blk.len ∧ blk.timeCol.length = blk.len)) ∧
    (blk.version ≠ 1 →
      Builder.from_slice blk = Except.error "Version mismatch") := by
  have hstep : ∀ (α γ : Type) (len : Nat) (col : List α)
      (f : List α → Except String γ),
      ((readCol len col).bind f).isOk = true ↔
        (col.length = len ∧ (f col).isOk = true) := by
    intro α γ len col f
    unfold readCol
    by_cases h : col.length = len <;> simp [h, Except.bind, Except.isOk, Except.toBool]
  constructor
  · unfold Builder.from_slice
    by_cases hv : blk.version = 1
    · simp [hv, hstep, Except.isOk]
      tauto
    · simp [hv, Except.isOk, Except.toBool]
  · intro hv
    unfold Builder.from_slice
    simp [hv]

/-- Witness for C2 amended: a version 2 block is rejected with the Version
mismatch error. -/
theorem c2_version_gate_witness :
    Builder.from_slice { Builder.write_to Builder.emptyB with version := 2 } =
      Except.error "Version mismatch" :=
  (c2_version_gate { Builder.write_to Builder.emptyB with version := 2 }).2
    (by decide)

/-- C8 counterexample: a mirror holding two open records, queried with the
reversed range 1..0 (so a > b): Builder::range computes end - start on usize,
which wraps under release semantics, so the iterator yields the record at
sequence 1 instead of being empty (under debug semantics the subtraction
panics; either way the iterator is not empty-and-normal). -/
theorem c8_counterexample :
    Client.get_range
      (Client.mk []
        ((Builder.emptyB.add ⟨200, ['a'], ['/'], none, none, 0, 80, 100⟩).add
          ⟨404, ['b'], ['/'], none, none, 0, 81, 101⟩) 0 0) 1 0 =
      some [(1, ⟨404, ['b'], ['/'], none, none, 0, 81, 101⟩)] := by
  decide

theorem rustSubUsize_self (s : Nat) : rustSubUsize s s = 0 := by
  unfold rustSubUsize
  have h : s + 2 ^ 64 - s = 2 ^ 64 := by omega
  rw [h, Nat.mod_self]

theorem mapM_flatten_nil {α β : Type} (l : List α)
    (f : α → Option (List β)) (h : ∀ x ∈ l, f x = some []) :
    ((l.mapM f).map List.flatten) = some [] := by
  induction l with
  | nil => rfl
  | cons x rest ih =>
    rw [List.mapM_cons, h x (List.mem_cons_self x rest)]
    have hrest := ih fun y hy => h y (List.mem_cons_of_mem x hy)
    match hm : rest.mapM f with
    | none => rw [hm] at hrest; simp at hrest
    | some ls =>
      rw [hm] at hrest
      simp at hrest
      simp [hm]
      exact hrest

/-- C8 amended: get_range(a..a) yields an empty iterator for every mirror
state; for a > b the claim fails (Builder::range underflows end - start, see
the counterexample), so only the degenerate equal-bounds range is empty. -/
theorem c8_get_range_equal_empty (c : Client) (a : Nat) :
    c.get_range a a = some [] := by
  unfold Client.get_range
  have hcond : ¬(c.entries.length ≠ 0 ∧ a < a) := by omega
  rw [if_neg hcond]
  apply mapM_flatten_nil
  intro nc _
  simp only [Builder.rangeEntries, rustSubUsize_self, List.take_zero,
    List.mapM_nil]
  rfl

/-- C9 counterexample: with a predicate matching nothing and start 5,
scroll_by(-1) walks zero matches backward and jumps the view start to 0, so a
backward scroll is not a no-op on a nonzero start. -/
theorem c9_counterexample :
    ((FilterView.mk 3 (some fun _ => false) [] [] 5).scroll_by
      (Client.mk []
        ((Builder.emptyB.add ⟨200, ['a'], ['/'], none, none, 0, 80, 100⟩).add
          ⟨404, ['b'], ['/'], none, none, 0, 81, 101⟩) 0 0) (-1)).map
      (fun r => r.1.start) = some 0 ∧ (5 : Nat) ≠ 0 := by
  decide

theorem option_map_some_false {o : Option BatchEntry} {f : BatchEntry → Bool}
    (h : o.map f = some false) : ∃ y, o = some y ∧ f y = false := by
  cases o with
  | none => simp at h
  | some y => exact ⟨y, rfl, by simpa using h⟩

theorem mapM_some_of_isSome {α β : Type} (f : α → Option β) :
    ∀ l : List α, (∀ x ∈ l, (f x).isSome = true) →
      ∃ ys, l.mapM f = some ys ∧ ∀ y ∈ ys, ∃ x ∈ l, f x = some y := by
  intro l
  induction l with
  | nil => intro _; exact ⟨[], rfl, by simp⟩
  | cons x rest ih =>
    intro h
    have hx := h x (List.mem_cons_self x rest)
    obtain ⟨y0, hy0⟩ := Option.isSome_iff_exists.mp hx
    obtain ⟨ys, hys, hmem⟩ := ih fun z hz => h z (List.mem_cons_of_mem x hz)
    refine ⟨y0 :: ys, ?_, ?_⟩
    · rw [List.mapM_cons, hy0, hys]
      rfl
    · intro y hy
      rcases List.mem_cons.mp hy with h1 | h2
      · exact ⟨x, List.mem_cons_self x rest, by rw [hy0, h1]⟩
      · obtain ⟨z, hz, hfz⟩ := hmem y h2
        exact ⟨z, List.mem_cons_of_mem x hz, hfz⟩

theorem chunkBody_noMatch (fv : FilterView) (nc : Nat × Builder) (a b : Nat)
    (h : chunkNoMatch fv nc.2) :
    ∃ l,
      (let s := min (a - nc.1) nc.2.len
       let e := min (b - nc.1) nc.2.len
       (nc.2.rangeEntries s e).map fun es =>
         es.enum.map fun ie =>
           (((ie.1 + s) % 2 ^ 64 + nc.1) % 2 ^ 64, ie.2)) = some l ∧
      l.filter (fun p => fv.matchesF p.2) = [] := by
  have hsub : ∀ cE ∈ (nc.2.soa.drop (min (a - nc.1) nc.2.len)).take
      (rustSubUsize (min (b - nc.1) nc.2.len) (min (a - nc.1) nc.2.len)),
      (nc.2.decompressEntry cE).map fv.matchesF = some false := by
    intro cE hcE
    exact h cE (List.mem_of_mem_drop (List.mem_of_mem_take hcE))
  have hisSome : ∀ cE ∈ (nc.2.soa.drop (min (a - nc.1) nc.2.len)).take
      (rustSubUsize (min (b - nc.1) nc.2.len) (min (a - nc.1) nc.2.len)),
      (nc.2.decompressEntry cE).isSome = true := by
    intro cE hcE
    obtain ⟨y, hy, _⟩ := option_map_some_false (hsub cE hcE)
    rw [hy]
    rfl
  obtain ⟨es, hes, hmem⟩ := mapM_some_of_isSome _ _ hisSome
  refine ⟨es.enum.map fun ie =>
    (((ie.1 + min (a - nc.1) nc.2.len) % 2 ^ 64 + nc.1) % 2 ^ 64, ie.2),
    ?_, ?_⟩
  · show (nc.2.rangeEntries _ _).map _ = _
    unfold Builder.rangeEntries
    rw [hes]
    rfl
  · rw [List.filter_eq_nil_iff]
    intro p hp
    obtain ⟨ie, hie, hpe⟩ := List.mem_map.mp hp
    obtain ⟨cE, hcE, hdec⟩ := hmem ie.2 (List.snd_mem_of_mem_enum hie)
    have hfalse := hsub cE hcE
    rw [hdec] at hfalse
    simp only [Option.map_some'] at hfalse
    rw [← hpe]
    simp only [Option.some.injEq] at hfalse
    simp [hfalse]

theorem mapM_flatten_filter_nil {α β : Type} (f : α → Option (List β))
    (pred : β → Bool) (l : List α)
    (h : ∀ x ∈ l, ∃ ys, f x = some ys ∧ ys.filter pred = []) :
    ∃ rows, (l.mapM f).map List.flatten = some rows ∧
      rows.filter pred = [] := by
  induction l with
  | nil => exact ⟨[], rfl, rfl⟩
  | cons x rest ih =>
    obtain ⟨ys, hys, hfil⟩ := h x (List.mem_cons_self x rest)
    obtain ⟨rows, hrows, hrfil⟩ := ih fun z hz => h z (List.mem_cons_of_mem x hz)
    cases hm : rest.mapM f with
    | none => rw [hm] at hrows; simp at hrows
    | some ls =>
      rw [hm] at hrows
      simp only [Option.map_some', Option.some.injEq] at hrows
      refine ⟨ys ++ ls.flatten, ?_, ?_⟩
      · rw [List.mapM_cons, hys, hm]
        rfl
      · rw [List.filter_append, hfil, hrows, hrfil]
        rfl

theorem get_range_noMatch (fv : FilterView) (c : Client) (a b : Nat)
    (hnm : ClientNoMatch fv c)
    (hab : ¬(c.entries.length ≠ 0 ∧ b < a)) :
    ∃ rows, c.get_range a b = some rows ∧
      rows.filter (fun p => fv.matchesF p.2) = [] := by
  have hchunks : ∀ nc ∈ (match (c.entries.filter fun p => p.1 < a).getLast?
      with
      | some x => [x]
      | none => []) ++ (c.entries.filter fun p => a ≤ p.1 ∧ p.1 < b) ++
      [(c.current_start, c.current)], chunkNoMatch fv nc.2 := by
    intro nc hnc
    rcases List.mem_append.mp hnc with hmc | hcur
    · rcases List.mem_append.mp hmc with hbelow | hmid
      · match hm : (c.entries.filter fun p => p.1 < a).getLast? with
        | some x =>
          rw [hm] at hbelow
          have hx : x ∈ c.entries.filter fun p => p.1 < a :=
            List.mem_of_mem_getLast? hm
          have hxe := List.mem_of_mem_filter hx
          have : nc = x := by simpa using hbelow
          rw [this]
          exact hnm.1 x hxe
        | none =>
          rw [hm] at hbelow
          simp at hbelow
      · exact hnm.1 nc (List.mem_of_mem_filter hmid)
    · have : nc = (c.current_start, c.current) := by simpa using hcur
      rw [this]
      exact hnm.2
  unfold Client.get_range
  rw [if_neg hab]
  exact mapM_flatten_filter_nil _ _ _
    fun nc hnc => chunkBody_noMatch fv nc a b (hchunks nc hnc)

/-- C9 amended: for a view predicate matching no entry of the client mirror
and a view with no visible positions, render returns an empty list and leaves
start unchanged; scroll_by(+k) leaves start unchanged and reports the end
reached; scroll_by(-k) is not a no-op: it sets start to 0 (a no-op only when
start was already 0). -/
theorem c9_filterView_amended (fv : FilterView) (c : Client) (k : Int)
    (hnm : ClientNoMatch fv c) (hpos : fv.positions = [])
    (hk : 0 < k) (hs : fv.start + 1 < 2 ^ 64) :
    ((fv.render c).1 = some [] ∧ (fv.render c).2.start = fv.start) ∧
    (∃ r, fv.scroll_by c k = some r ∧ r.1.start = fv.start ∧ r.2 = true) ∧
    (∃ r, fv.scroll_by c (-k) = some r ∧ r.1.start = 0 ∧ r.2 = true) := by
  refine ⟨?_, ?_, ?_⟩
  · have hab : ¬(c.entries.length ≠ 0 ∧ 2 ^ 64 - 1 < fv.start) := by
      intro hcontra
      omega
    obtain ⟨rows, hr, hf⟩ :=
      get_range_noMatch fv c fv.start (2 ^ 64 - 1) hnm hab
    unfold FilterView.render
    rw [hr]
    simp [hf]
  · have hab : ¬(c.entries.length ≠ 0 ∧ 2 ^ 64 - 1 < fv.start + 1) := by
      intro hcontra
      omega
    obtain ⟨rows, hr, hf⟩ :=
      get_range_noMatch fv c (fv.start + 1) (2 ^ 64 - 1) hnm hab
    unfold FilterView.scroll_by
    rw [if_pos hk, hpos]
    simp only [List.getLast?_nil, Option.getD_none]
    rw [hr]
    simp only [hf, List.take_nil, List.foldl_nil, hpos, List.head?_nil,
      Option.getD_none]
    refine ⟨_, rfl, rfl, ?_⟩
    simp only [List.length_nil, decide_eq_true_eq]
    omega
  · have hneg : ¬((0 : Int) < -k) := by omega
    have hab : ¬(c.entries.length ≠ 0 ∧ fv.start < 0) := by
      intro hcontra
      omega
    obtain ⟨rows, hr, hf⟩ := get_range_noMatch fv c 0 fv.start hnm hab
    unfold FilterView.scroll_by
    rw [if_neg hneg, hr]
    have hrev : rows.reverse.filter (fun p => fv.matchesF p.2) = [] := by
      rw [List.filter_reverse, hf]
      rfl
    simp [hrev]

/-- Witness for C9 amended at a never-matching predicate over a two-record
mirror with view start 5 and k = 1. -/
theorem c9_filterView_amended_witness :
    ClientNoMatch (FilterView.mk 3 (some fun _ => false) [] [] 5)
      (Client.mk []
        ((Builder.emptyB.add ⟨200, ['a'], ['/'], none, none, 0, 80, 100⟩).add
          ⟨404, ['b'], ['/'], none, none, 0, 81, 101⟩) 0 0) ∧
    ((((FilterView.mk 3 (some fun _ => false) [] [] 5).render
      (Client.mk []
        ((Builder.emptyB.add ⟨200, ['a'], ['/'], none, none, 0, 80, 100⟩).add
          ⟨404, ['b'], ['/'], none, none, 0, 81, 101⟩) 0 0)).1 = some [] ∧
    ((FilterView.mk 3 (some fun _ => false) [] [] 5).render
      (Client.mk []
        ((Builder.emptyB.add ⟨200, ['a'], ['/'], none, none, 0, 80, 100⟩).add
          ⟨404, ['b'], ['/'], none, none, 0, 81, 101⟩) 0 0)).2.start = 5) ∧
    (∃ r, (FilterView.mk 3 (some fun _ => false) [] [] 5).scroll_by
      (Client.mk []
        ((Builder.emptyB.add ⟨200, ['a'], ['/'], none, none, 0, 80, 100⟩).add
          ⟨404, ['b'], ['/'], none, none, 0, 81, 101⟩) 0 0) 1 = some r ∧
      r.1.start = 5 ∧ r.2 = true) ∧
    (∃ r, (FilterView.mk 3 (some fun _ => false) [] [] 5).scroll_by
      (Client.mk []
        ((Builder.emptyB.add ⟨200, ['a'], ['/'], none, none, 0, 80, 100⟩).add
          ⟨404, ['b'], ['/'], none, none, 0, 81, 101⟩) 0 0) (-1) = some r ∧
      r.1.start = 0 ∧ r.2 = true)) :=
  ⟨by unfold ClientNoMatch chunkNoMatch; decide,
    c9_filterView_amended (FilterView.mk 3 (some fun _ => false) [] [] 5)
      (Client.mk []
        ((Builder.emptyB.add ⟨200, ['a'], ['/'], none, none, 0, 80, 100⟩).add
          ⟨404, ['b'], ['/'], none, none, 0, 81, 101⟩) 0 0) 1
      (by unfold ClientNoMatch chunkNoMatch; decide) rfl (by decide)
      (by decide)⟩

theorem insertFull_getElem [DecidableEq α] (l : List α) (x : α) :
    (indexSetInsertFull l x).1[(indexSetInsertFull l x).2]? = some x := by
  unfold indexSetInsertFull
  match h : l.findIdx? (· = x) with
  | some i =>
    obtain ⟨hlt, hp, _⟩ := List.findIdx?_eq_some_iff_getElem.mp h
    simp only [decide_eq_true_eq] at hp
    simp only [List.getElem?_eq_getElem hlt, hp]
  | none =>
    simp only
    exact List.getElem?_concat_length l x

theorem insertFull_stable [DecidableEq α] (l : List α) (x : α) (i : Nat)
    (y : α) (h : l[i]? = some y) :
    (indexSetInsertFull l x).1[i]? = some y := by
  unfold indexSetInsertFull
  match hf : l.findIdx? (· = x) with
  | some _ => simpa using h
  | none =>
    simp only
    have hi : i < l.length := by
      rw [List.getElem?_eq_some] at h
      exact h.1
    rw [List.getElem?_append_left hi]
    exact h

theorem insertFull_len_le [DecidableEq α] (l : List α) (x : α) :
    (indexSetInsertFull l x).1.length ≤ l.length + 1 := by
  unfold indexSetInsertFull
  match hf : l.findIdx? (· = x) with
  | some _ => simp
  | none => simp

theorem insertFull_idx_le [DecidableEq α] (l : List α) (x : α) :
    (indexSetInsertFull l x).2 ≤ l.length := by
  unfold indexSetInsertFull
  match hf : l.findIdx? (· = x) with
  | some i =>
    obtain ⟨hlt, _, _⟩ := List.findIdx?_eq_some_iff_getElem.mp hf
    simpa using Nat.le_of_lt hlt
  | none => simp

theorem insertFull_nodup [DecidableEq α] (l : List α) (x : α)
    (h : l.Nodup) : (indexSetInsertFull l x).1.Nodup := by
  unfold indexSetInsertFull
  match hf : l.findIdx? (· = x) with
  | some _ => simpa using h
  | none =>
    have hx : x ∉ l := by
      intro hmem
      have := List.findIdx?_eq_none_iff.mp hf x hmem
      simp at this
    simp [List.nodup_append, h, hx]

theorem insertFull_mem [DecidableEq α] (l : List α) (x y : α)
    (h : y ∈ (indexSetInsertFull l x).1) : y ∈ l ∨ y = x := by
  unfold indexSetInsertFull at h
  match hf : l.findIdx? (· = x) with
  | some _ =>
    rw [hf] at h
    exact Or.inl h
  | none =>
    rw [hf] at h
    simpa using h

theorem insertFull_ne_nil [DecidableEq α] (l : List α) (x : α) :
    (indexSetInsertFull l x).1 ≠ [] := by
  unfold indexSetInsertFull
  match hf : l.findIdx? (· = x) with
  | some i =>
    obtain ⟨hlt, _, _⟩ := List.findIdx?_eq_some_iff_getElem.mp hf
    simp only
    intro he
    rw [he] at hlt
    simp at hlt
  | none => simp

theorem insertFull_fold_fresh [DecidableEq α] :
    ∀ (ss l : List α), (∀ z ∈ ss, z ∉ l) → ss.Nodup →
      ss.foldl (fun acc z => (indexSetInsertFull acc z).1) l = l ++ ss := by
  intro ss
  induction ss with
  | nil => intro l _ _; simp
  | cons z rest ih =>
    intro l hfresh hnodup
    have hz : l.findIdx? (· = z) = none := by
      rw [List.findIdx?_eq_none_iff]
      intro w hw
      simp only [decide_eq_false_iff_not]
      intro he
      exact hfresh z (List.mem_cons_self z rest) (he ▸ hw)
    have hstep : indexSetInsertFull l z = (l ++ [z], l.length) := by
      unfold indexSetInsertFull
      rw [hz]
    rw [List.foldl_cons, hstep]
    have hfresh2 : ∀ w ∈ rest, w ∉ l ++ [z] := by
      intro w hw
      simp only [List.mem_append, List.mem_singleton]
      rintro (hwl | hwz)
      · exact hfresh w (List.mem_cons_of_mem z hw) hwl
      · exact (List.nodup_cons.mp hnodup).1 (hwz ▸ hw)
    rw [ih (l ++ [z]) hfresh2 (List.nodup_cons.mp hnodup).2]
    simp

theorem splitSep_no_sep : ∀ s : RStr, strSep ∉ s → splitSep s = [s] := by
  intro s
  induction s with
  | nil => intro _; rfl
  | cons c cs ih =>
    intro h
    have hc : ¬(c = strSep) := by
      intro he
      exact h (he ▸ List.mem_cons_self c cs)
    simp only [splitSep, if_neg hc]
    rw [ih fun hm => h (List.mem_cons_of_mem c hm)]

theorem splitSep_append_sep :
    ∀ s t : RStr, strSep ∉ s → splitSep (s ++ strSep :: t) = s :: splitSep t
    := by
  intro s
  induction s with
  | nil =>
    intro t _
    simp [splitSep]
  | cons c cs ih =>
    intro t h
    have hc : ¬(c = strSep) := by
      intro he
      exact h (he ▸ List.mem_cons_self c cs)
    simp only [List.cons_append, splitSep, if_neg hc, List.append_eq]
    rw [ih t fun hm => h (List.mem_cons_of_mem c hm)]

theorem splitSep_joinSep :
    ∀ ss : List RStr, (∀ s ∈ ss, strSep ∉ s) → ss ≠ [] →
      splitSep (joinSep ss) = ss := by
  intro ss
  induction ss with
  | nil => intro _ hne; exact absurd rfl hne
  | cons s tail ih =>
    intro h _
    cases tail with
    | nil =>
      show splitSep (joinSep [s]) = [s]
      exact splitSep_no_sep s (h s (List.mem_cons_self s []))
    | cons s2 rest =>
      have hjoin : joinSep (s :: s2 :: rest) = s ++ strSep :: joinSep
        (s2 :: rest) := rfl
      rw [hjoin, splitSep_append_sep s _ (h s (List.mem_cons_self s _)),
        ih (fun z hz => h z (List.mem_cons_of_mem s hz)) (by simp)]

theorem extend_strings (ss : List RStr) :
    ∀ it : Interner, (it.extend ss).strings =
      ss.foldl (fun acc z => (indexSetInsertFull acc z).1) it.strings := by
  induction ss with
  | nil => intro it; rfl
  | cons z rest ih =>
    intro it
    show (Interner.extend ⟨(indexSetInsertFull it.strings z).1⟩ rest).strings
      = _
    rw [ih ⟨(indexSetInsertFull it.strings z).1⟩]
    rfl

theorem extend_empty_nodup (ss : List RStr) (h : ss.Nodup) :
    Interner.emptyI.extend ss = ⟨ss⟩ := by
  have hstr := extend_strings ss Interner.emptyI
  have hemp : Interner.emptyI.strings = ([] : List RStr) := rfl
  rw [hemp, insertFull_fold_fresh ss [] (by simp) h, List.nil_append] at hstr
  cases hex : Interner.emptyI.extend ss with
  | mk strs =>
    rw [hex] at hstr
    exact congrArg Interner.mk hstr

theorem or_eq_add_of_lt (a b k : Nat) (hb : b < 2 ^ k) :
    (a * 2 ^ k) ||| b = a * 2 ^ k + b := by
  rw [mul_comm]
  exact (Nat.mul_add_lt_is_or hb a).symm

theorem ipv6_recombine (n : Nat) (h : n < 2 ^ 128) :
    (((n >>> 96) % 2 ^ 32) <<< 96) ||| (((n >>> 64) % 2 ^ 32) <<< 64) |||
      (((n >>> 32) % 2 ^ 32) <<< 32) ||| (n % 2 ^ 32) = n := by
  simp only [Nat.shiftLeft_eq, Nat.shiftRight_eq_div_pow]
  have m2 : n / 2 ^ 64 % 2 ^ 32 < 2 ^ 32 := Nat.mod_lt _ (by norm_num)
  have m1 : n / 2 ^ 32 % 2 ^ 32 < 2 ^ 32 := Nat.mod_lt _ (by norm_num)
  have b2 : n / 2 ^ 64 % 2 ^ 32 * 2 ^ 64 < 2 ^ 96 := by omega
  have b1 : n / 2 ^ 32 % 2 ^ 32 * 2 ^ 32 < 2 ^ 64 := by omega
  have b0 : n % 2 ^ 32 < 2 ^ 32 := Nat.mod_lt _ (by norm_num)
  rw [or_eq_add_of_lt _ _ 96 b2]
  have e2 : n / 2 ^ 96 % 2 ^ 32 * 2 ^ 96 + n / 2 ^ 64 % 2 ^ 32 * 2 ^ 64 =
      (n / 2 ^ 96 % 2 ^ 32 * 2 ^ 32 + n / 2 ^ 64 % 2 ^ 32) * 2 ^ 64 := by
    ring
  rw [e2, or_eq_add_of_lt _ _ 64 b1]
  have e1 : (n / 2 ^ 96 % 2 ^ 32 * 2 ^ 32 + n / 2 ^ 64 % 2 ^ 32) * 2 ^ 64 +
      n / 2 ^ 32 % 2 ^ 32 * 2 ^ 32 =
      ((n / 2 ^ 96 % 2 ^ 32 * 2 ^ 32 + n / 2 ^ 64 % 2 ^ 32) * 2 ^ 32 +
        n / 2 ^ 32 % 2 ^ 32) * 2 ^ 32 := by
    ring
  rw [e1, or_eq_add_of_lt _ _ 32 b0]
  have hd : n / 2 ^ 96 % 2 ^ 32 = n / 2 ^ 96 := by
    apply Nat.mod_eq_of_lt
    omega
  rw [hd]
  omega

theorem hashStrings_get_stable (ha hb : HashStrings)
    (hext : ∀ (i : Nat) (y : RStr), ha.set.strings[i]? = some y →
      hb.set.strings[i]? = some y)
    (c : Nat) (m : RStr) (h : ha.get c = some m) : hb.get c = some m := by
  unfold HashStrings.get at h ⊢
  cases hs : symTryFromUsize c with
  | none => rw [hs] at h; simp at h
  | some s =>
    rw [hs] at h
    simp only [Option.some_bind] at h ⊢
    exact hext s m h

theorem hashIpv6_get_stable (ha hb : HashIpv6)
    (hext : ∀ (i : Nat) (y : Nat × Nat × Nat), ha.prefixes[i]? = some y →
      hb.prefixes[i]? = some y)
    (c : Nat × Nat) (m : Nat) (h : ha.get c = some m) : hb.get c = some m := by
  unfold HashIpv6.get at h ⊢
  cases hp : ha.prefixes[c.1]? with
  | none => rw [hp] at h; simp at h
  | some y =>
    rw [hp] at h
    rw [hext c.1 y hp]
    exact h

theorem builder_add_soa (b : Builder) (r : BatchEntry) :
    (b.add r).soa = b.soa ++
      [{ status := r.status,
         method := (indexSetInsertFull b.method.set.strings r.method).2 %
           2 ^ 32,
         uri := (indexSetInsertFull b.uri.set.strings r.uri).2 % 2 ^ 32,
         ua := (b.ua.add r.ua).2,
         referer := (b.referer.add r.referer).2,
         ip_pre_idx := (indexSetInsertFull b.ip.prefixes
           ((r.ip >>> 96) % 2 ^ 32, (r.ip >>> 64) % 2 ^ 32,
            (r.ip >>> 32) % 2 ^ 32)).2 % 2 ^ 32,
         ip_suffix := r.ip % 2 ^ 32,
         port := r.port,
         time := (b.time.add r.time).2 }] := rfl

theorem builder_add_method (b : Builder) (r : BatchEntry) :
    (b.add r).method.set.strings =
      (indexSetInsertFull b.method.set.strings r.method).1 := rfl

theorem builder_add_uri (b : Builder) (r : BatchEntry) :
    (b.add r).uri.set.strings =
      (indexSetInsertFull b.uri.set.strings r.uri).1 := rfl

theorem builder_add_ip (b : Builder) (r : BatchEntry) :
    (b.add r).ip.prefixes = (indexSetInsertFull b.ip.prefixes
      ((r.ip >>> 96) % 2 ^ 32, (r.ip >>> 64) % 2 ^ 32,
       (r.ip >>> 32) % 2 ^ 32)).1 := rfl

theorem builder_add_ua_none (b : Builder) (r : BatchEntry) (h : r.ua = none) :
    (b.add r).ua = b.ua := by
  show (b.ua.add r.ua).1 = b.ua
  rw [h]
  rfl

theorem builder_add_referer_none (b : Builder) (r : BatchEntry)
    (h : r.referer = none) : (b.add r).referer = b.referer := by
  show (b.referer.add r.referer).1 = b.referer
  rw [h]
  rfl

theorem builder_add_time (b : Builder) (r : BatchEntry) :
    (b.add r).time = (b.time.add r.time).1 := rfl

theorem decompress_stable (b : Builder) (r : BatchEntry) (c : CompressedEntry)
    (hua : c.ua = 0) (href : c.referer = 0)
    (htoff : (b.add r).time.offset = b.time.offset)
    (x : BatchEntry) (h : b.decompressEntry c = some x) :
    (b.add r).decompressEntry c = some x := by
  unfold Builder.decompressEntry at h ⊢
  simp only [NumberSeries.get, Option.some_bind] at h ⊢
  cases hm : b.method.get c.method with
  | none => rw [hm] at h; simp at h
  | some m =>
    rw [hm] at h
    have hm2 : (b.add r).method.get c.method = some m :=
      hashStrings_get_stable b.method (b.add r).method
        (fun i y hy => by
          rw [builder_add_method]
          exact insertFull_stable _ _ _ _ hy) c.method m hm
    rw [hm2]
    simp only [Option.some_bind] at h ⊢
    cases hu : b.uri.get c.uri with
    | none => rw [hu] at h; simp at h
    | some u =>
      rw [hu] at h
      have hu2 : (b.add r).uri.get c.uri = some u :=
        hashStrings_get_stable b.uri (b.add r).uri
          (fun i y hy => by
            rw [builder_add_uri]
            exact insertFull_stable _ _ _ _ hy) c.uri u hu
      rw [hu2]
      simp only [Option.some_bind] at h ⊢
      rw [hua, href] at h ⊢
      simp only [HashStringsOpt.get, Option.some_bind] at h ⊢
      cases hi : b.ip.get (c.ip_pre_idx, c.ip_suffix) with
      | none => rw [hi] at h; simp at h
      | some ipv =>
        rw [hi] at h
        have hi2 : (b.add r).ip.get (c.ip_pre_idx, c.ip_suffix) = some ipv :=
          hashIpv6_get_stable b.ip (b.add r).ip
            (fun i y hy => by
              rw [builder_add_ip]
              exact insertFull_stable _ _ _ _ hy) _ ipv hi
        rw [hi2]
        simp only [Option.some_bind] at h ⊢
        unfold TimeSeries.get at h ⊢
        rw [builder_add_time] at htoff ⊢
        rw [htoff]
        exact h

theorem timeBase_cons_ne_zero (t : Nat) (rest : List Nat) :
    timeBase (t :: rest) ≠ 0 := by
  simp only [timeBase]
  split <;> simp_all

theorem timeBase_append_of_ne_nil (done : List BatchEntry) (r : BatchEntry)
    (hne : done ≠ []) :
    timeBase ((done ++ [r]).map BatchEntry.time) =
      timeBase (done.map BatchEntry.time) := by
  cases done with
  | nil => exact absurd rfl hne
  | cons d rest => rfl

theorem builder_add_timeOff (b : Builder) (done : List BatchEntry)
    (r : BatchEntry) (P : BuilderInv b done) :
    (b.add r).time.offset = timeBase ((done ++ [r]).map BatchEntry.time) := by
  show (b.time.add r.time).1.offset = _
  cases hd : done with
  | nil =>
    have h0 : b.time.offset = 0 := by
      have ht := P.timeOff
      rw [hd] at ht
      simpa [timeBase] using ht
    simp only [TimeSeries.add, h0, if_pos rfl, List.nil_append,
      List.map_cons, List.map_nil]
    by_cases hr : r.time = 0 <;> simp [timeBase, hr]
  | cons d rest =>
    have hne : b.time.offset ≠ 0 := by
      rw [P.timeOff, hd]
      simp only [List.map_cons]
      exact timeBase_cons_ne_zero _ _
    rw [timeSeries_add_frozen b.time r.time hne]
    rw [P.timeOff, hd]
    rfl

theorem builder_add_decode_new (b : Builder) (done : List BatchEntry)
    (r : BatchEntry) (P : BuilderInv b done)
    (hua : r.ua = none) (href : r.referer = none)
    (hip : r.ip < 2 ^ 128)
    (hlen : done.length + 1 < 2 ^ 32 - 1)
    (ht1 : timeBase ((done ++ [r]).map BatchEntry.time) ≤ r.time)
    (ht2 : r.time < timeBase ((done ++ [r]).map BatchEntry.time) + 2 ^ 32)
    (ht3 : r.time < 2 ^ 64) :
    (b.add r).decompressEntry
      { status := r.status,
        method := (indexSetInsertFull b.method.set.strings r.method).2 %
          2 ^ 32,
        uri := (indexSetInsertFull b.uri.set.strings r.uri).2 % 2 ^ 32,
        ua := (b.ua.add r.ua).2,
        referer := (b.referer.add r.referer).2,
        ip_pre_idx := (indexSetInsertFull b.ip.prefixes
          ((r.ip >>> 96) % 2 ^ 32, (r.ip >>> 64) % 2 ^ 32,
           (r.ip >>> 32) % 2 ^ 32)).2 % 2 ^ 32,
        ip_suffix := r.ip % 2 ^ 32,
        port := r.port,
        time := (b.time.add r.time).2 } = some r := by
  have hoffNew := builder_add_timeOff b done r P
  have hmidx : (indexSetInsertFull b.method.set.strings r.method).2 ≤
      done.length :=
    le_trans (insertFull_idx_le _ _) P.methodLen
  have hmget : (b.add r).method.get
      ((indexSetInsertFull b.method.set.strings r.method).2 % 2 ^ 32) =
      some r.method := by
    rw [Nat.mod_eq_of_lt (by omega)]
    unfold HashStrings.get symTryFromUsize
    rw [if_pos (by omega)]
    simp only [Option.some_bind]
    show (b.add r).method.set.strings[_]? = some r.method
    rw [builder_add_method]
    exact insertFull_getElem _ _
  have huidx : (indexSetInsertFull b.uri.set.strings r.uri).2 ≤
      done.length :=
    le_trans (insertFull_idx_le _ _) P.uriLen
  have huget : (b.add r).uri.get
      ((indexSetInsertFull b.uri.set.strings r.uri).2 % 2 ^ 32) =
      some r.uri := by
    rw [Nat.mod_eq_of_lt (by omega)]
    unfold HashStrings.get symTryFromUsize
    rw [if_pos (by omega)]
    simp only [Option.some_bind]
    show (b.add r).uri.set.strings[_]? = some r.uri
    rw [builder_add_uri]
    exact insertFull_getElem _ _
  have huaget : (b.add r).ua.get ((b.ua.add r.ua).2) = some r.ua := by
    rw [hua]
    rfl
  have hrefget : (b.add r).referer.get ((b.referer.add r.referer).2) =
      some r.referer := by
    rw [href]
    rfl
  have hiidx : (indexSetInsertFull b.ip.prefixes
      ((r.ip >>> 96) % 2 ^ 32, (r.ip >>> 64) % 2 ^ 32,
       (r.ip >>> 32) % 2 ^ 32)).2 ≤ done.length :=
    le_trans (insertFull_idx_le _ _) P.ipLen
  have higet : (b.add r).ip.get
      ((indexSetInsertFull b.ip.prefixes
        ((r.ip >>> 96) % 2 ^ 32, (r.ip >>> 64) % 2 ^ 32,
         (r.ip >>> 32) % 2 ^ 32)).2 % 2 ^ 32, r.ip % 2 ^ 32) = some r.ip := by
    rw [Nat.mod_eq_of_lt (by omega)]
    unfold HashIpv6.get
    have hpget := insertFull_getElem b.ip.prefixes
      ((r.ip >>> 96) % 2 ^ 32, (r.ip >>> 64) % 2 ^ 32, (r.ip >>> 32) % 2 ^ 32)
    rw [show (b.add r).ip.prefixes = (indexSetInsertFull b.ip.prefixes
      ((r.ip >>> 96) % 2 ^ 32, (r.ip >>> 64) % 2 ^ 32,
       (r.ip >>> 32) % 2 ^ 32)).1 from rfl]
    rw [hpget]
    exact congrArg some (ipv6_recombine r.ip hip)
  have htget : (b.add r).time.get ((b.time.add r.time).2) = some r.time := by
    have hh : (b.time.add r.time).2 =
        ((r.time + 2 ^ 64 - (b.time.add r.time).1.offset) % 2 ^ 64) % 2 ^ 32
      := rfl
    have hoff2 : (b.time.add r.time).1.offset =
        timeBase ((done ++ [r]).map BatchEntry.time) := hoffNew
    have hmk : (b.time.add r.time).1 =
        TimeSeries.mk (timeBase ((done ++ [r]).map BatchEntry.time)) := by
      cases hx : (b.time.add r.time).1 with
      | mk o =>
        rw [hx] at hoff2
        exact congrArg TimeSeries.mk hoff2
    rw [builder_add_time, hh, hoff2, hmk]
    exact timeSeries_decode_handle _ r.time ht1 ht2 ht3
  unfold Builder.decompressEntry
  simp only [NumberSeries.get, Option.some_bind]
  rw [hmget]
  simp only [Option.some_bind]
  rw [huget]
  simp only [Option.some_bind]
  rw [huaget]
  simp only [Option.some_bind]
  rw [hrefget]
  simp only [Option.some_bind]
  rw [higet]
  simp only [Option.some_bind]
  rw [htget]
  rfl

theorem builderInv_add (b : Builder) (done : List BatchEntry) (r : BatchEntry)
    (P : BuilderInv b done)
    (hua : r.ua = none) (href : r.referer = none)
    (hip : r.ip < 2 ^ 128)
    (hlen : done.length + 1 < 2 ^ 32 - 1)
    (ht1 : timeBase ((done ++ [r]).map BatchEntry.time) ≤ r.time)
    (ht2 : r.time < timeBase ((done ++ [r]).map BatchEntry.time) + 2 ^ 32)
    (ht3 : r.time < 2 ^ 64) :
    BuilderInv (b.add r) (done ++ [r]) := by
  have hoffNew := builder_add_timeOff b done r P
  have hsoalen : b.soa.length = done.length := P.lenEq
  refine
    { lenEq := ?_, decode := ?_, methodNodup := ?_, methodProv := ?_,
      methodLen := ?_, methodNeNil := ?_, uriNodup := ?_, uriProv := ?_,
      uriLen := ?_, uriNeNil := ?_, uaEmpty := ?_, refererEmpty := ?_,
      optZero := ?_, ipNodup := ?_, ipLen := ?_, timeOff := ?_ }
  · rw [builder_add_soa]
    simp [hsoalen]
  · intro i c rr hc hr
    rw [builder_add_soa] at hc
    by_cases hi : i < done.length
    · have hdne : done ≠ [] := by
        intro hd
        rw [hd] at hi
        simp at hi
      have hc2 : b.soa[i]? = some c := by
        rw [List.getElem?_append_left (by omega : i < b.soa.length)] at hc
        exact hc
      have hr2 : done[i]? = some rr := by
        rw [List.getElem?_append_left hi] at hr
        exact hr
      have hz := P.optZero c (List.getElem?_mem hc2)
      have htoffeq : (b.add r).time.offset = b.time.offset := by
        rw [hoffNew, P.timeOff, timeBase_append_of_ne_nil done r hdne]
      exact decompress_stable b r c hz.1 hz.2 htoffeq rr
        (P.decode i c rr hc2 hr2)
    · have hil : i < done.length + 1 := by
        obtain ⟨hlt, _⟩ := List.getElem?_eq_some.mp hr
        simpa using hlt
      have hieq : i = done.length := by omega
      subst hieq
      rw [List.getElem?_concat_length] at hr
      rw [← hsoalen] at hc
      rw [List.getElem?_concat_length] at hc
      have hr3 : rr = r := by
        injection hr with h
        exact h.symm
      have hc3 : c =
          { status := r.status,
            method := (indexSetInsertFull b.method.set.strings r.method).2 %
              2 ^ 32,
            uri := (indexSetInsertFull b.uri.set.strings r.uri).2 % 2 ^ 32,
            ua := (b.ua.add r.ua).2,
            referer := (b.referer.add r.referer).2,
            ip_pre_idx := (indexSetInsertFull b.ip.prefixes
              ((r.ip >>> 96) % 2 ^ 32, (r.ip >>> 64) % 2 ^ 32,
               (r.ip >>> 32) % 2 ^ 32)).2 % 2 ^ 32,
            ip_suffix := r.ip % 2 ^ 32,
            port := r.port,
            time := (b.time.add r.time).2 } := by
        injection hc with h
        exact h.symm
      rw [hr3, hc3]
      exact builder_add_decode_new b done r P hua href hip hlen ht1 ht2 ht3
  · rw [builder_add_method]
    exact insertFull_nodup _ _ P.methodNodup
  · intro s hs
    rw [builder_add_method] at hs
    rcases insertFull_mem _ _ _ hs with hold | hnew
    · obtain ⟨rr, hrr, hseq⟩ := P.methodProv s hold
      exact ⟨rr, List.mem_append_left _ hrr, hseq⟩
    · exact ⟨r, List.mem_append_right _ (by simp), hnew⟩
  · rw [builder_add_method]
    have h1 := insertFull_len_le b.method.set.strings r.method
    have h2 := P.methodLen
    simp only [List.length_append, List.length_singleton]
    omega
  · intro _
    rw [builder_add_method]
    exact insertFull_ne_nil _ _
  · rw [builder_add_uri]
    exact insertFull_nodup _ _ P.uriNodup
  · intro s hs
    rw [builder_add_uri] at hs
    rcases insertFull_mem _ _ _ hs with hold | hnew
    · obtain ⟨rr, hrr, hseq⟩ := P.uriProv s hold
      exact ⟨rr, List.mem_append_left _ hrr, hseq⟩
    · exact ⟨r, List.mem_append_right _ (by simp), hnew⟩
  · rw [builder_add_uri]
    have h1 := insertFull_len_le b.uri.set.strings r.uri
    have h2 := P.uriLen
    simp only [List.length_append, List.length_singleton]
    omega
  · intro _
    rw [builder_add_uri]
    exact insertFull_ne_nil _ _
  · rw [builder_add_ua_none b r hua]
    exact P.uaEmpty
  · rw [builder_add_referer_none b r href]
    exact P.refererEmpty
  · intro c hc
    rw [builder_add_soa] at hc
    rcases List.mem_append.mp hc with hold | hnew
    · exact P.optZero c hold
    · have hcl := List.mem_singleton.mp hnew
      rw [hcl]
      constructor
      · show (b.ua.add r.ua).2 = 0
        rw [hua]
        rfl
      · show (b.referer.add r.referer).2 = 0
        rw [href]
        rfl
  · rw [builder_add_ip]
    exact insertFull_nodup _ _ P.ipNodup
  · rw [builder_add_ip]
    have h1 := insertFull_len_le b.ip.prefixes
      ((r.ip >>> 96) % 2 ^ 32, (r.ip >>> 64) % 2 ^ 32, (r.ip >>> 32) % 2 ^ 32)
    have h2 := P.ipLen
    simp only [List.length_append, List.length_singleton]
    omega
  · exact hoffNew

theorem timeBase_prefix (done : List BatchEntry) (r : BatchEntry)
    (tail : List BatchEntry) :
    timeBase ((done ++ [r]).map BatchEntry.time) =
      timeBase ((done ++ r :: tail).map BatchEntry.time) := by
  cases done with
  | nil => rfl
  | cons d rest => rfl

theorem builderInv_empty : BuilderInv Builder.emptyB [] := by
  refine
    { lenEq := rfl, decode := ?_, methodNodup := List.nodup_nil,
      methodProv := ?_, methodLen := le_refl 0, methodNeNil := ?_,
      uriNodup := List.nodup_nil, uriProv := ?_, uriLen := le_refl 0,
      uriNeNil := ?_, uaEmpty := rfl, refererEmpty := rfl, optZero := ?_,
      ipNodup := List.nodup_nil, ipLen := le_refl 0, timeOff := rfl }
  · intro i c r hc _
    simp [Builder.emptyB] at hc
  · intro s hs
    simp [Builder.emptyB, Interner.emptyI] at hs
  · intro h
    exact absurd rfl h
  · intro s hs
    simp [Builder.emptyB, Interner.emptyI] at hs
  · intro h
    exact absurd rfl h
  · intro c hc
    simp [Builder.emptyB] at hc

theorem builderInv_fold_aux (rs : List BatchEntry)
    (hua : ∀ r ∈ rs, r.ua = none) (href : ∀ r ∈ rs, r.referer = none)
    (hip : ∀ r ∈ rs, r.ip < 2 ^ 128)
    (hlen : rs.length < 2 ^ 32 - 1)
    (htime : ∀ r ∈ rs, timeBase (rs.map BatchEntry.time) ≤ r.time ∧
      r.time < timeBase (rs.map BatchEntry.time) + 2 ^ 32 ∧
      r.time < 2 ^ 64) :
    ∀ (rest done : List BatchEntry) (b : Builder), done ++ rest = rs →
      BuilderInv b done → BuilderInv (rest.foldl Builder.add b) rs := by
  intro rest
  induction rest with
  | nil =>
    intro done b heq P
    rw [List.foldl_nil]
    rw [List.append_nil] at heq
    rw [← heq]
    exact P
  | cons r rest2 ih =>
    intro done b heq P
    have hrmem : r ∈ rs := by
      rw [← heq]
      simp
    have hbase : timeBase ((done ++ [r]).map BatchEntry.time) =
        timeBase (rs.map BatchEntry.time) := by
      rw [← heq]
      exact timeBase_prefix done r rest2
    have hdlen : done.length + 1 < 2 ^ 32 - 1 := by
      have : rs.length = done.length + 1 + rest2.length := by
        rw [← heq]
        simp only [List.length_append, List.length_cons]
        omega
      omega
    have ht := htime r hrmem
    have hstep := builderInv_add b done r P (hua r hrmem) (href r hrmem)
      (hip r hrmem) hdlen (by rw [hbase]; exact ht.1)
      (by rw [hbase]; exact ht.2.1) ht.2.2
    rw [List.foldl_cons]
    exact ih (done ++ [r]) (b.add r) (by rw [← heq]; simp) hstep

theorem builderInv_fold (rs : List BatchEntry)
    (hua : ∀ r ∈ rs, r.ua = none) (href : ∀ r ∈ rs, r.referer = none)
    (hip : ∀ r ∈ rs, r.ip < 2 ^ 128)
    (hlen : rs.length < 2 ^ 32 - 1)
    (htime : ∀ r ∈ rs, timeBase (rs.map BatchEntry.time) ≤ r.time ∧
      r.time < timeBase (rs.map BatchEntry.time) + 2 ^ 32 ∧
      r.time < 2 ^ 64) :
    BuilderInv (buildFrom rs) rs :=
  builderInv_fold_aux rs hua href hip hlen htime rs [] Builder.emptyB rfl
    builderInv_empty

theorem zip9_proj (l : List CompressedEntry) :
    zip9 (l.map (·.status)) (l.map (·.method)) (l.map (·.uri))
      (l.map (·.ua)) (l.map (·.referer)) (l.map (·.ip_pre_idx))
      (l.map (·.ip_suffix)) (l.map (·.port)) (l.map (·.time)) = l := by
  induction l with
  | nil => rfl
  | cons c rest ih =>
    simp only [List.map_cons, zip9, ih]

theorem mapM_eq_some_of_pointwise {α β : Type} (f : α → Option β) :
    ∀ (l : List α) (ys : List β), l.length = ys.length →
      (∀ (i : Nat) (x : α) (y : β), l[i]? = some x → ys[i]? = some y →
        f x = some y) →
      l.mapM f = some ys := by
  intro l
  induction l with
  | nil =>
    intro ys hlen _
    cases ys with
    | nil => rfl
    | cons y ys2 => simp at hlen
  | cons x rest ih =>
    intro ys hlen hpt
    cases ys with
    | nil => simp at hlen
    | cons y ys2 =>
      have hx : f x = some y := hpt 0 x y (by simp) (by simp)
      have hrest := ih ys2 (by simpa using hlen)
        fun i a bb ha hb => hpt (i + 1) a bb (by simpa using ha)
          (by simpa using hb)
      rw [List.mapM_cons, hx, hrest]
      rfl

theorem decompress_transfer (bx bz : Builder) (c : CompressedEntry)
    (hm : bz.method = bx.method) (hu : bz.uri = bx.uri)
    (hi : bz.ip = bx.ip) (ht : bz.time = bx.time)
    (hua : c.ua = 0) (href : c.referer = 0) :
    bz.decompressEntry c = bx.decompressEntry c := by
  unfold Builder.decompressEntry
  rw [hm, hu, hi, ht, hua, href]
  rfl

theorem from_slice_write_to (b : Builder) :
    Builder.from_slice (Builder.write_to b) = Except.ok
      { status := ⟨⟩,
        method := HashStrings.readSet (joinSep b.method.set.strings),
        uri := HashStrings.readSet (joinSep b.uri.set.strings),
        ua := HashStringsOpt.readSet (joinSep b.ua.set.strings),
        referer := HashStringsOpt.readSet (joinSep b.referer.set.strings),
        ip := HashIpv6.readTable b.ip.prefixes,
        port := ⟨⟩,
        time := ⟨b.time.offset⟩,
        soa := b.soa } := by
  unfold Builder.from_slice Builder.write_to readCol
  simp only [List.length_map, if_pos rfl, ite_true, Except.bind]
  rw [zip9_proj]

/-- C1 counterexample: a single record with ua Some x does not round-trip:
the HashStringsOpt add bug makes its handle 0, which decodes as None, so the
decoded iteration differs from the ingested record sequence. -/
theorem c1_counterexample :
    ((Builder.from_slice (Builder.write_to (buildFrom
      [⟨200, ['G'], ['/'], some ['x'], none, 0, 80, 100⟩]))).toOption.map
      Builder.entriesAll) =
      some (some [⟨200, ['G'], ['/'], none, none, 0, 80, 100⟩]) ∧
    (⟨200, ['G'], ['/'], some ['x'], none, 0, 80, 100⟩ : BatchEntry) ≠
      ⟨200, ['G'], ['/'], none, none, 0, 80, 100⟩ := by
  decide

/-- C1 amended: encode-then-decode round-trips the record sequence exactly
for blocks whose records have no ua and no referer (the optional-string codec
mis-encodes Some values), whose method and uri contain no newline (the string
pool separator), with fewer records than the u32 symbol space, and whose
times lie in the u32 window above the per-block base offset. -/
theorem c1_roundtrip_amended (rs : List BatchEntry)
    (hua : ∀ r ∈ rs, r.ua = none) (href : ∀ r ∈ rs, r.referer = none)
    (hsep : ∀ r ∈ rs, strSep ∉ r.method ∧ strSep ∉ r.uri)
    (hip : ∀ r ∈ rs, r.ip < 2 ^ 128)
    (hlen : rs.length < 2 ^ 32 - 1)
    (htime : ∀ r ∈ rs, timeBase (rs.map BatchEntry.time) ≤ r.time ∧
      r.time < timeBase (rs.map BatchEntry.time) + 2 ^ 32 ∧
      r.time < 2 ^ 64) :
    ∃ b2, Builder.from_slice (Builder.write_to (buildFrom rs)) =
        Except.ok b2 ∧ b2.len = (buildFrom rs).len ∧
      b2.entriesAll = some rs := by
  rcases rs with _ | ⟨r0, rest⟩
  · exact ⟨_, rfl, rfl, rfl⟩
  · have P := builderInv_fold (r0 :: rest) hua href hip hlen htime
    have hnosepM : ∀ s ∈ (buildFrom (r0 :: rest)).method.set.strings,
        strSep ∉ s := by
      intro s hs
      obtain ⟨r, hr, hseq⟩ := P.methodProv s hs
      rw [hseq]
      exact (hsep r hr).1
    have hnosepU : ∀ s ∈ (buildFrom (r0 :: rest)).uri.set.strings,
        strSep ∉ s := by
      intro s hs
      obtain ⟨r, hr, hseq⟩ := P.uriProv s hs
      rw [hseq]
      exact (hsep r hr).2
    have hm2 : HashStrings.readSet
        (joinSep (buildFrom (r0 :: rest)).method.set.strings) =
        (buildFrom (r0 :: rest)).method := by
      unfold HashStrings.readSet
      rw [splitSep_joinSep _ hnosepM (P.methodNeNil (by simp)),
        extend_empty_nodup _ P.methodNodup]
    have hu2 : HashStrings.readSet
        (joinSep (buildFrom (r0 :: rest)).uri.set.strings) =
        (buildFrom (r0 :: rest)).uri := by
      unfold HashStrings.readSet
      rw [splitSep_joinSep _ hnosepU (P.uriNeNil (by simp)),
        extend_empty_nodup _ P.uriNodup]
    have hi2 : HashIpv6.readTable (buildFrom (r0 :: rest)).ip.prefixes =
        (buildFrom (r0 :: rest)).ip := by
      unfold HashIpv6.readTable
      rw [insertFull_fold_fresh _ [] (by simp) P.ipNodup, List.nil_append]
    have hti2 : (⟨(buildFrom (r0 :: rest)).time.offset⟩ : TimeSeries) =
        (buildFrom (r0 :: rest)).time := rfl
    obtain ⟨b2, hok, hbm, hbu, hbi, hbt, hbsoa⟩ :
        ∃ b2, Builder.from_slice (Builder.write_to (buildFrom (r0 :: rest)))
            = Except.ok b2 ∧
          b2.method = (buildFrom (r0 :: rest)).method ∧
          b2.uri = (buildFrom (r0 :: rest)).uri ∧
          b2.ip = (buildFrom (r0 :: rest)).ip ∧
          b2.time = (buildFrom (r0 :: rest)).time ∧
          b2.soa = (buildFrom (r0 :: rest)).soa :=
      ⟨_, from_slice_write_to (buildFrom (r0 :: rest)), hm2, hu2, hi2, hti2,
        rfl⟩
    refine ⟨b2, hok, ?_, ?_⟩
    · show b2.soa.length = (buildFrom (r0 :: rest)).soa.length
      rw [hbsoa]
    · unfold Builder.entriesAll
      rw [hbsoa]
      apply mapM_eq_some_of_pointwise
      · exact P.lenEq
      · intro i c r hc hr
        have hz := P.optZero c (List.getElem?_mem hc)
        rw [decompress_transfer (buildFrom (r0 :: rest)) b2 c hbm hbu hbi hbt
          hz.1 hz.2]
        exact P.decode i c r hc hr

/-- Witness for C1 amended at a three-record block. -/
theorem c1_roundtrip_amended_witness :
    (∀ r ∈ [(⟨200, ['G'], ['/', 'a'], none, none, 5, 80, 100⟩ : BatchEntry),
      ⟨404, ['P'], ['/', 'b'], none, none, 5, 81, 101⟩,
      ⟨200, ['G'], ['/', 'a'], none, none, 6, 80, 102⟩], r.ua = none) ∧
    (∃ b2, Builder.from_slice (Builder.write_to (buildFrom
        [(⟨200, ['G'], ['/', 'a'], none, none, 5, 80, 100⟩ : BatchEntry),
         ⟨404, ['P'], ['/', 'b'], none, none, 5, 81, 101⟩,
         ⟨200, ['G'], ['/', 'a'], none, none, 6, 80, 102⟩])) =
          Except.ok b2 ∧
      b2.len = (buildFrom
        [(⟨200, ['G'], ['/', 'a'], none, none, 5, 80, 100⟩ : BatchEntry),
         ⟨404, ['P'], ['/', 'b'], none, none, 5, 81, 101⟩,
         ⟨200, ['G'], ['/', 'a'], none, none, 6, 80, 102⟩]).len ∧
      b2.entriesAll = some
        [(⟨200, ['G'], ['/', 'a'], none, none, 5, 80, 100⟩ : BatchEntry),
         ⟨404, ['P'], ['/', 'b'], none, none, 5, 81, 101⟩,
         ⟨200, ['G'], ['/', 'a'], none, none, 6, 80, 102⟩]) :=
  ⟨by decide,
    c1_roundtrip_amended
      [⟨200, ['G'], ['/', 'a'], none, none, 5, 80, 100⟩,
       ⟨404, ['P'], ['/', 'b'], none, none, 5, 81, 101⟩,
       ⟨200, ['G'], ['/', 'a'], none, none, 6, 80, 102⟩]
      (by decide) (by decide) (by decide) (by decide) (by decide)
      (by decide)⟩

end Clog
